import Mathlib

/-!
Verification of the GPT-2 layer primitives in `src/llm-rs/src/gpt2/util.rs`.

Shallow embedding conventions:
* A raw `f32` buffer (base pointer plus offsets) is a total function `Buf := ℕ → ℚ`;
  a store `*p.add(i) = v` is the pointwise update `wr`.
* Arithmetic is exact rational arithmetic.  Transcendental helpers of `f32`
  (`exp`, `sqrt`, `tanh`, `cosh`) are abstract function parameters, so every
  theorem holds for each concrete instantiation of them.
* The `NEG_INFINITY` initial value of a running maximum is modelled by
  `Option ℚ` with `none` as the initial state: any first candidate replaces it,
  exactly as every non-NaN float compares greater than negative infinity.
* The rayon parallel loops of the source only ever write pairwise disjoint
  locations; they are embedded as sequential folds (`iterN`) in index order.
* A nullable pointer argument (the matmul bias) is an `Option Buf`;
  the nullable `dbias` of `matmul_backward` is a `Bool` flag plus a buffer.
-/

/-- A flat float buffer: address to value. -/
def Buf : Type := ℕ → ℚ

/-- Pointwise store into a buffer. -/
def wr (f : Buf) (i : ℕ) (v : ℚ) : Buf := fun j => if j = i then v else f j

@[simp] theorem wr_same (f : Buf) (i : ℕ) (v : ℚ) : wr f i v i = v := by
  simp [wr]

theorem wr_ne (f : Buf) (i j : ℕ) (v : ℚ) (h : j ≠ i) : wr f i v j = f j := by
  simp [wr, h]

/-- `iterN n f a` runs `f` on states for indices `0, 1, …, n-1` in order,
the counted `for` loop of the source. -/
def iterN {St : Type*} : ℕ → (ℕ → St → St) → St → St
  | 0, _, a => a
  | n+1, f, a => f n (iterN n f a)

/-- A sequential `+=` reduction: `acc = 0; for i in 0..n { acc += f i }`. -/
def sumN (n : ℕ) (f : ℕ → ℚ) : ℚ := iterN n (fun i acc => acc + f i) 0

@[simp] theorem sumN_zero (f : ℕ → ℚ) : sumN 0 f = 0 := rfl

theorem sumN_succ (n : ℕ) (f : ℕ → ℚ) : sumN (n+1) f = sumN n f + f n := rfl

/-- A running maximum over `f 0, …, f (n-1)` with a `none` start, modelling the
`maxval = NEG_INFINITY; if val > maxval { maxval = val }` pattern. -/
def runMax (f : ℕ → ℚ) : ℕ → Option ℚ
  | 0 => none
  | n+1 =>
    match runMax f n with
    | none => some (f n)
    | some mv => if mv < f n then some (f n) else some mv

theorem runMax_const (f : ℕ → ℚ) (c : ℚ) (n : ℕ) (hn : 0 < n)
    (h : ∀ i, i < n → f i = c) : runMax f n = some c := by
  induction n with
  | zero => exact absurd hn (lt_irrefl 0)
  | succ n ih =>
    rcases Nat.eq_zero_or_pos n with h0 | hpos
    · subst h0
      simp [runMax, h 0 (by omega)]
    · have hr := ih hpos (fun i hi => h i (by omega))
      simp [runMax, hr, h n (by omega)]

theorem sumN_congr (n : ℕ) (f g : ℕ → ℚ) (h : ∀ i, i < n → f i = g i) :
    sumN n f = sumN n g := by
  induction n with
  | zero => rfl
  | succ n ih =>
    rw [sumN_succ, sumN_succ, ih (fun i hi => h i (by omega)), h n (by omega)]

theorem sumN_const (n : ℕ) (c : ℚ) : sumN n (fun _ => c) = n * c := by
  induction n with
  | zero => simp
  | succ n ih => rw [sumN_succ, ih]; push_cast; ring

/-- If every loop iteration preserves an observation `e`, the whole loop does. -/
theorem iterN_keep {St : Type*} {α : Type*} (n : ℕ) (F : ℕ → St → St) (e : St → α)
    (s : St) (hk : ∀ i, i < n → ∀ s, e (F i s) = e s) :
    e (iterN n F s) = e s := by
  induction n with
  | zero => rfl
  | succ n ih =>
    show e (F n (iterN n F s)) = e s
    rw [hk n (by omega), ih (fun i hi => hk i (by omega))]

/-- If exactly iteration `i0` transforms an observation `e` by `φ` and every
other iteration preserves it, the whole loop transforms it by `φ`. -/
theorem iterN_eval {St : Type*} {α : Type*} (n i0 : ℕ) (F : ℕ → St → St) (e : St → α)
    (φ : α → α) (s : St) (h0 : i0 < n) (hw : ∀ s, e (F i0 s) = φ (e s))
    (hk : ∀ i, i < n → i ≠ i0 → ∀ s, e (F i s) = e s) :
    e (iterN n F s) = φ (e s) := by
  induction n with
  | zero => omega
  | succ n ih =>
    show e (F n (iterN n F s)) = φ (e s)
    rcases Nat.lt_or_ge i0 n with hlt | hge
    · rw [hk n (by omega) (by omega)]
      exact ih hlt (fun i h1 h2 => hk i (by omega) h2)
    · have hi0 : i0 = n := by omega
      rw [hi0] at hw
      rw [hw, iterN_keep n F e s (fun i hi => hk i (by omega) (by omega))]

/-- If iteration `i` adds `a i` to an observation `e`, the loop adds `sumN n a`. -/
theorem iterN_addAll {St : Type*} (n : ℕ) (F : ℕ → St → St) (e : St → ℚ)
    (a : ℕ → ℚ) (s : St) (h : ∀ i, i < n → ∀ s, e (F i s) = e s + a i) :
    e (iterN n F s) = e s + sumN n a := by
  induction n with
  | zero => show e s = e s + sumN 0 a; simp
  | succ n ih =>
    show e (F n (iterN n F s)) = e s + sumN (n+1) a
    rw [h n (by omega), ih (fun i hi => h i (by omega)), sumN_succ]
    ring

/-- A projected component that evolves autonomously under the loop follows the
projected loop. -/
theorem iterN_proj {St : Type*} {β : Type*} (n : ℕ) (F : ℕ → St → St)
    (e : St → β) (G : ℕ → β → β) (s : St) (h : ∀ i, i < n → ∀ s, e (F i s) = G i (e s)) :
    e (iterN n F s) = iterN n G (e s) := by
  induction n with
  | zero => rfl
  | succ n ih =>
    show e (F n (iterN n F s)) = G n (iterN n G (e s))
    rw [h n (by omega), ih (fun i hi => h i (by omega))]

/-- A loop commutes with a state translation that each iteration commutes with. -/
theorem iterN_comm {St : Type*} (n : ℕ) (F : ℕ → St → St) (Tr : St → St) (s : St)
    (h : ∀ i, i < n → ∀ s, F i (Tr s) = Tr (F i s)) :
    iterN n F (Tr s) = Tr (iterN n F s) := by
  induction n with
  | zero => rfl
  | succ n ih =>
    show F n (iterN n F (Tr s)) = Tr (F n (iterN n F s))
    rw [ih (fun i hi => h i (by omega)), h n (by omega)]

theorem iterN_congr {St : Type*} (n : ℕ) (F G : ℕ → St → St) (s : St)
    (h : ∀ i, i < n → ∀ s, F i s = G i s) : iterN n F s = iterN n G s := by
  induction n with
  | zero => rfl
  | succ n ih =>
    show F n (iterN n F s) = G n (iterN n G s)
    rw [ih (fun i hi => h i (by omega)), h n (by omega)]

/-- Strict monotonicity of the row-major index in the row number. -/
theorem rowIdx_lt {W bt o bt' o' : ℕ} (hbt : bt < bt') (ho : o < W) :
    bt * W + o < bt' * W + o' := by
  calc bt * W + o < bt * W + W := by omega
  _ = (bt + 1) * W := by ring
  _ ≤ bt' * W := Nat.mul_le_mul_right W hbt
  _ ≤ bt' * W + o' := by omega

/-- Mixed-radix injectivity of the row-major index `bt*W + o` with `o < W`. -/
theorem rowIdx_inj {W bt o bt' o' : ℕ} (ho : o < W) (ho' : o' < W)
    (h : bt * W + o = bt' * W + o') : bt = bt' ∧ o = o' := by
  have h1 : bt = bt' := by
    by_contra hne
    rcases Nat.lt_or_ge bt bt' with hlt | hge
    · have hx := @rowIdx_lt W bt o bt' o' hlt ho
      omega
    · have hgt : bt' < bt := by omega
      have hx := @rowIdx_lt W bt' o' bt o hgt ho'
      omega
  subst h1
  exact ⟨rfl, by omega⟩

/-!  ## residual_backward  (util.rs lines 712-722)

`for i in 0..N { *dinp1.add(i) += *dout.add(i); *dinp2.add(i) += *dout.add(i); }`
-/

def residual_backward (dout : Buf) (N : ℕ) (st : Buf × Buf) : Buf × Buf :=
  iterN N (fun i s =>
    (wr s.1 i (s.1 i + dout i), wr s.2 i (s.2 i + dout i))) st

theorem residual_backward_fst (dout : Buf) (N : ℕ) (st : Buf × Buf) (j : ℕ) (hj : j < N) :
    (residual_backward dout N st).1 j = st.1 j + dout j :=
  iterN_eval N j (fun i s => (wr s.1 i (s.1 i + dout i), wr s.2 i (s.2 i + dout i)))
    (fun s => s.1 j) (fun x => x + dout j) st hj
    (fun s => by simp)
    (fun i hi hne s => wr_ne _ _ _ _ (Ne.symm hne))

theorem residual_backward_snd (dout : Buf) (N : ℕ) (st : Buf × Buf) (j : ℕ) (hj : j < N) :
    (residual_backward dout N st).2 j = st.2 j + dout j :=
  iterN_eval N j (fun i s => (wr s.1 i (s.1 i + dout i), wr s.2 i (s.2 i + dout i)))
    (fun s => s.2 j) (fun x => x + dout j) st hj
    (fun s => by simp)
    (fun i hi hne s => wr_ne _ _ _ _ (Ne.symm hne))

/-- Claim C9, counterexample: after `residual_backward`, `dinp1` and `dinp2` need
not be equal element-wise.  With `N = 1`, `dout = [0]`, and initial buffers
`dinp1 = [1]`, `dinp2 = [0]`, the call leaves `1 ≠ 0` at entry 0. -/
theorem residual_backward_not_eq :
    ¬ ((residual_backward (fun _ => 0) 1 ((fun _ => 1), (fun _ => 0))).1 0
       = (residual_backward (fun _ => 0) 1 ((fun _ => 1), (fun _ => 0))).2 0) := by
  norm_num [residual_backward, iterN, wr]

/-- Claim C9 (amended): after a call to `residual_backward(dinp1, dinp2, dout, N)`,
if the two gradient buffers agreed element-wise over their `N` entries before the
call (for example because the caller zeroed them), they are equal element-wise
over those `N` entries after the call. -/
theorem residual_backward_eq_of_eq (dout : Buf) (N : ℕ) (d1 d2 : Buf)
    (h : ∀ i, i < N → d1 i = d2 i) :
    ∀ i, i < N →
      (residual_backward dout N (d1, d2)).1 i = (residual_backward dout N (d1, d2)).2 i := by
  intro i hi
  rw [residual_backward_fst dout N (d1, d2) i hi, residual_backward_snd dout N (d1, d2) i hi]
  simp [h i hi]

theorem residual_backward_eq_of_eq_witness :
    (∀ i : ℕ, i < 1 → (fun _ : ℕ => (0:ℚ)) i = (fun _ : ℕ => (0:ℚ)) i) ∧
    (residual_backward (fun _ => 5) 1 ((fun _ => 0), (fun _ => 0))).1 0
      = (residual_backward (fun _ => 5) 1 ((fun _ => 0), (fun _ => 0))).2 0 :=
  ⟨fun i _ => rfl,
   residual_backward_eq_of_eq (fun _ => 5) 1 (fun _ => 0) (fun _ => 0)
     (fun i _ => rfl) 0 (by decide)⟩

/-!  ## crossentropy_softmax_backward  (util.rs lines 829-855)

Per (b,t): `dloss = dlosses[b,t]; ix = targets[b,t];
for i in 0..V { dlogits[b,t,i] += (probs[b,t,i] - indicator) * dloss }`.
The loop runs only to `V`, leaving the padded range `[V,Vp)` untouched.
-/

def crossentropy_softmax_backward (dlosses probs : Buf) (targets : ℕ → ℕ)
    (B T V Vp : ℕ) (dlogits : Buf) : Buf :=
  iterN B (fun b d => iterN T (fun t d =>
    iterN V (fun i d =>
      wr d (b*T*Vp + t*Vp + i)
        (d (b*T*Vp + t*Vp + i) +
          (probs (b*T*Vp + t*Vp + i) - (if i = targets (b*T + t) then 1 else 0))
            * dlosses (b*T + t))) d) d) dlogits

theorem flat3 (b t i T W : ℕ) : b*T*W + t*W + i = (b*T + t)*W + i := by ring

/-- Distinct (b,t,i) coordinates with bounded `t` and `i` give distinct flat
offsets `b*T*W + t*W + i`. -/
theorem idx3_ne {T W b t i b' t' i' : ℕ} (ht : t < T) (ht' : t' < T)
    (hi : i < W) (hi' : i' < W) (h : ¬(b = b' ∧ t = t' ∧ i = i')) :
    b*T*W + t*W + i ≠ b'*T*W + t'*W + i' := by
  intro he
  rw [flat3, flat3] at he
  obtain ⟨h1, h2⟩ := rowIdx_inj hi hi' he
  obtain ⟨h3, h4⟩ := rowIdx_inj ht ht' h1
  exact h ⟨h3, h4, h2⟩

/-- Claim C3: for every (b,t), `crossentropy_softmax_backward` adds
`(probs[b,t,i] - indicator(i == targets[b,t])) * dlosses[b,t]` into
`dlogits[b,t,i]` for every `i < V`, and leaves every entry with channel index
in `[V, Vp)` unchanged. -/
theorem crossentropy_softmax_backward_spec (dlosses probs : Buf) (targets : ℕ → ℕ)
    (B T V Vp : ℕ) (dlogits : Buf) (b t : ℕ)
    (hb : b < B) (ht : t < T) (hVp : V ≤ Vp) :
    (∀ i, i < V →
      crossentropy_softmax_backward dlosses probs targets B T V Vp dlogits
          (b*T*Vp + t*Vp + i)
        = dlogits (b*T*Vp + t*Vp + i)
          + (probs (b*T*Vp + t*Vp + i) - (if i = targets (b*T + t) then 1 else 0))
              * dlosses (b*T + t))
    ∧ (∀ i, V ≤ i → i < Vp →
      crossentropy_softmax_backward dlosses probs targets B T V Vp dlogits
          (b*T*Vp + t*Vp + i)
        = dlogits (b*T*Vp + t*Vp + i)) := by
  constructor
  · intro i hi
    have hiVp : i < Vp := lt_of_lt_of_le hi hVp
    refine iterN_eval B b _ (fun d : Buf => d (b*T*Vp + t*Vp + i))
      (fun x => x + (probs (b*T*Vp + t*Vp + i)
        - (if i = targets (b*T + t) then 1 else 0)) * dlosses (b*T + t))
      dlogits hb ?_ ?_
    · intro d
      refine iterN_eval T t _ (fun d : Buf => d (b*T*Vp + t*Vp + i))
        (fun x => x + (probs (b*T*Vp + t*Vp + i)
          - (if i = targets (b*T + t) then 1 else 0)) * dlosses (b*T + t))
        d ht ?_ ?_
      · intro d
        refine iterN_eval V i _ (fun d : Buf => d (b*T*Vp + t*Vp + i))
          (fun x => x + (probs (b*T*Vp + t*Vp + i)
            - (if i = targets (b*T + t) then 1 else 0)) * dlosses (b*T + t))
          d hi ?_ ?_
        · intro d; simp
        · intro i' hi' hne d
          exact wr_ne _ _ _ _ (by omega)
      · intro t' ht' hne d
        refine iterN_keep V _ (fun d : Buf => d (b*T*Vp + t*Vp + i)) d ?_
        intro i' hi' d
        refine wr_ne _ _ _ _ ?_
        exact (idx3_ne ht' ht (lt_of_lt_of_le hi' hVp) hiVp
          (by intro hx; exact hne hx.2.1)).symm
    · intro b' hb' hne d
      refine iterN_keep T _ (fun d : Buf => d (b*T*Vp + t*Vp + i)) d ?_
      intro t' ht' d
      refine iterN_keep V _ (fun d : Buf => d (b*T*Vp + t*Vp + i)) d ?_
      intro i' hi' d
      refine wr_ne _ _ _ _ ?_
      exact (idx3_ne ht' ht (lt_of_lt_of_le hi' hVp) hiVp
        (by intro hx; exact hne hx.1)).symm
  · intro i hiV hiVp
    refine iterN_keep B _ (fun d : Buf => d (b*T*Vp + t*Vp + i)) dlogits ?_
    intro b' hb' d
    refine iterN_keep T _ (fun d : Buf => d (b*T*Vp + t*Vp + i)) d ?_
    intro t' ht' d
    refine iterN_keep V _ (fun d : Buf => d (b*T*Vp + t*Vp + i)) d ?_
    intro i' hi' d
    refine wr_ne _ _ _ _ ?_
    exact (idx3_ne ht' ht (lt_of_lt_of_le hi' hVp) hiVp
      (by intro hx; omega)).symm

theorem crossentropy_softmax_backward_spec_witness :
    (0:ℕ) < 1 ∧ (1:ℕ) ≤ 2 ∧
    crossentropy_softmax_backward (fun _ => 2) (fun _ => 1/2) (fun _ => 0) 1 1 1 2
        (fun _ => 10) 0 = 9 ∧
    crossentropy_softmax_backward (fun _ => 2) (fun _ => 1/2) (fun _ => 0) 1 1 1 2
        (fun _ => 10) 1 = 10 := by
  have h := crossentropy_softmax_backward_spec (fun _ => 2) (fun _ => 1/2) (fun _ => 0)
    1 1 1 2 (fun _ => 10) 0 0 (by omega) (by omega) (by omega)
  have h1 := h.1 0 (by omega)
  have h2 := h.2 1 (by omega) (by omega)
  norm_num at h1 h2
  exact ⟨by omega, by omega, h1, h2⟩

/-!  ## layernorm_forward  (util.rs lines 106-155)

Per (b,t): accumulate the row mean `m`, the biased variance `v` (division by C),
`s = 1/sqrt(v + 1e-5)`, write `out[b,t,i] = s*(x_i - m) * weight[i] + bias[i]`,
and cache `m` and `s` in `mean[b,t]` and `rstd[b,t]`.  The square root of `f32`
is the abstract parameter `sq`; the `f32` constant `1e-5` is the exact rational
`1/100000`.
-/

def idx2_ne {T b t b' t' : ℕ} (ht : t < T) (ht' : t' < T) (h : ¬(b = b' ∧ t = t')) :
    b*T + t ≠ b'*T + t' := fun he => h (rowIdx_inj ht ht' he)

def lnMean (inp : Buf) (T C b t : ℕ) : ℚ :=
  sumN C (fun i => inp (b*T*C + t*C + i)) / (C:ℚ)

def lnVar (inp : Buf) (T C b t : ℕ) : ℚ :=
  sumN C (fun i => (inp (b*T*C + t*C + i) - lnMean inp T C b t)
                 * (inp (b*T*C + t*C + i) - lnMean inp T C b t)) / (C:ℚ)

def lnRstd (sq : ℚ → ℚ) (inp : Buf) (T C b t : ℕ) : ℚ :=
  1 / sq (lnVar inp T C b t + 1/100000)

def layernorm_forward (sq : ℚ → ℚ) (inp weight bias : Buf) (B T C : ℕ)
    (st : Buf × Buf × Buf) : Buf × Buf × Buf :=
  iterN B (fun b st => iterN T (fun t st =>
    ( iterN C (fun i o => wr o (b*T*C + t*C + i)
        ((lnRstd sq inp T C b t * (inp (b*T*C + t*C + i) - lnMean inp T C b t))
          * weight i + bias i)) st.1
    , wr st.2.1 (b*T + t) (lnMean inp T C b t)
    , wr st.2.2 (b*T + t) (lnRstd sq inp T C b t) )) st) st

/-- Claim C5: for every (b,t), `layernorm_forward` writes the row mean into
`mean[b,t]`, the reciprocal standard deviation `s = 1/sqrt(v + 1e-5)` of the
biased row variance `v` into `rstd[b,t]`, and
`out[b,t,i] = ((inp[b,t,i] - m) * s) * weight[i] + bias[i]` for every `i < C`. -/
theorem layernorm_forward_spec (sq : ℚ → ℚ) (inp weight bias : Buf) (B T C : ℕ)
    (st : Buf × Buf × Buf) (b t : ℕ) (hb : b < B) (ht : t < T) :
    (layernorm_forward sq inp weight bias B T C st).2.1 (b*T + t) = lnMean inp T C b t
    ∧ (layernorm_forward sq inp weight bias B T C st).2.2 (b*T + t)
        = lnRstd sq inp T C b t
    ∧ (∀ i, i < C →
        (layernorm_forward sq inp weight bias B T C st).1 (b*T*C + t*C + i)
          = ((inp (b*T*C + t*C + i) - lnMean inp T C b t) * lnRstd sq inp T C b t)
              * weight i + bias i) := by
  refine ⟨?_, ?_, ?_⟩
  · refine iterN_eval B b _ (fun st : Buf × Buf × Buf => st.2.1 (b*T + t))
      (fun _ => lnMean inp T C b t) st hb ?_ ?_
    · intro st
      refine iterN_eval T t _ (fun st : Buf × Buf × Buf => st.2.1 (b*T + t))
        (fun _ => lnMean inp T C b t) st ht (fun st => by simp) ?_
      intro t' ht' hne st
      exact wr_ne _ _ _ _ (by omega)
    · intro b' hb' hne st
      refine iterN_keep T _ (fun st : Buf × Buf × Buf => st.2.1 (b*T + t)) st ?_
      intro t' ht' st
      exact wr_ne _ _ _ _ (idx2_ne ht ht' (by intro hx; exact hne hx.1.symm))
  · refine iterN_eval B b _ (fun st : Buf × Buf × Buf => st.2.2 (b*T + t))
      (fun _ => lnRstd sq inp T C b t) st hb ?_ ?_
    · intro st
      refine iterN_eval T t _ (fun st : Buf × Buf × Buf => st.2.2 (b*T + t))
        (fun _ => lnRstd sq inp T C b t) st ht (fun st => by simp) ?_
      intro t' ht' hne st
      exact wr_ne _ _ _ _ (by omega)
    · intro b' hb' hne st
      refine iterN_keep T _ (fun st : Buf × Buf × Buf => st.2.2 (b*T + t)) st ?_
      intro t' ht' st
      exact wr_ne _ _ _ _ (idx2_ne ht ht' (by intro hx; exact hne hx.1.symm))
  · intro i hi
    refine iterN_eval B b _ (fun st : Buf × Buf × Buf => st.1 (b*T*C + t*C + i))
      (fun _ => ((inp (b*T*C + t*C + i) - lnMean inp T C b t) * lnRstd sq inp T C b t)
        * weight i + bias i) st hb ?_ ?_
    · intro st
      refine iterN_eval T t _ (fun st : Buf × Buf × Buf => st.1 (b*T*C + t*C + i))
        (fun _ => ((inp (b*T*C + t*C + i) - lnMean inp T C b t) * lnRstd sq inp T C b t)
          * weight i + bias i) st ht ?_ ?_
      · intro st
        refine iterN_eval C i _ (fun o : Buf => o (b*T*C + t*C + i))
          (fun _ => ((inp (b*T*C + t*C + i) - lnMean inp T C b t) * lnRstd sq inp T C b t)
            * weight i + bias i) st.1 hi ?_ ?_
        · intro o
          show wr o (b*T*C + t*C + i) _ (b*T*C + t*C + i) = _
          rw [wr_same]; ring
        · intro i' hi' hne o
          exact wr_ne _ _ _ _ (by omega)
      · intro t' ht' hne st
        refine iterN_keep C _ (fun o : Buf => o (b*T*C + t*C + i)) st.1 ?_
        intro i' hi' o
        exact wr_ne _ _ _ _ ((idx3_ne ht' ht hi' hi
          (by intro hx; exact hne hx.2.1)).symm)
    · intro b' hb' hne st
      refine iterN_keep T _ (fun st : Buf × Buf × Buf => st.1 (b*T*C + t*C + i)) st ?_
      intro t' ht' st
      refine iterN_keep C _ (fun o : Buf => o (b*T*C + t*C + i)) st.1 ?_
      intro i' hi' o
      exact wr_ne _ _ _ _ ((idx3_ne ht' ht hi' hi
        (by intro hx; exact hne hx.1)).symm)

theorem layernorm_forward_spec_witness :
    (0:ℕ) < 1 ∧
    (layernorm_forward (fun _ => 2) (fun _ => 3) (fun _ => 1) (fun _ => 1) 1 1 1
        ((fun _ => 0), (fun _ => 0), (fun _ => 0))).2.1 (0*1 + 0)
      = lnMean (fun _ => 3) 1 1 0 0 :=
  ⟨by omega,
   (layernorm_forward_spec (fun _ => 2) (fun _ => 3) (fun _ => 1) (fun _ => 1) 1 1 1
     ((fun _ => 0), (fun _ => 0), (fun _ => 0)) 0 0 (by omega) (by omega)).1⟩

/-!  ## layernorm_backward  (util.rs lines 173-228)

Per (b,t): two reductions `dnorm_mean` and `dnorm_norm_mean` over the row,
then one loop over i accumulating into `dbias[i]`, `dweight[i]`, `dinp[b,t,i]`.
The state is the triple (dinp, dweight, dbias).
-/

def lnNorm (inp mean rstd : Buf) (T C b t i : ℕ) : ℚ :=
  (inp (b*T*C + t*C + i) - mean (b*T + t)) * rstd (b*T + t)

def lnDnorm (weight dout : Buf) (T C b t i : ℕ) : ℚ :=
  weight i * dout (b*T*C + t*C + i)

def lnDnormMean (weight dout : Buf) (T C b t : ℕ) : ℚ :=
  sumN C (fun i => lnDnorm weight dout T C b t i) / (C:ℚ)

def lnDnormNormMean (dout inp weight mean rstd : Buf) (T C b t : ℕ) : ℚ :=
  sumN C (fun i =>
    lnDnorm weight dout T C b t i * lnNorm inp mean rstd T C b t i) / (C:ℚ)

def layernorm_backward (dout inp weight mean rstd : Buf) (B T C : ℕ)
    (st : Buf × Buf × Buf) : Buf × Buf × Buf :=
  iterN B (fun b st => iterN T (fun t st =>
    iterN C (fun i st =>
      ( wr st.1 (b*T*C + t*C + i)
          (st.1 (b*T*C + t*C + i) +
            (lnDnorm weight dout T C b t i
              - lnDnormMean weight dout T C b t
              - lnNorm inp mean rstd T C b t i
                  * lnDnormNormMean dout inp weight mean rstd T C b t)
              * rstd (b*T + t))
      , wr st.2.1 i (st.2.1 i + lnNorm inp mean rstd T C b t i * dout (b*T*C + t*C + i))
      , wr st.2.2 i (st.2.2 i + dout (b*T*C + t*C + i)) )) st) st) st

/-- Claim C4: for every (b,t), `layernorm_backward` uses the cached statistics and
adds `rstd[b,t] * (dnorm_i - dnorm_mean - norm_i * dnorm_norm_mean)` into
`dinp[b,t,i]`; over all (b,t) it adds `norm_i * dout[b,t,i]` into `dweight[i]`
and `dout[b,t,i]` into `dbias[i]`. -/
theorem layernorm_backward_spec (dout inp weight mean rstd : Buf) (B T C : ℕ)
    (st : Buf × Buf × Buf) (b t i : ℕ) (hb : b < B) (ht : t < T) (hi : i < C) :
    (layernorm_backward dout inp weight mean rstd B T C st).1 (b*T*C + t*C + i)
      = st.1 (b*T*C + t*C + i)
        + rstd (b*T + t) * (lnDnorm weight dout T C b t i
            - lnDnormMean weight dout T C b t
            - lnNorm inp mean rstd T C b t i * lnDnormNormMean dout inp weight mean rstd T C b t)
    ∧ (layernorm_backward dout inp weight mean rstd B T C st).2.1 i
      = st.2.1 i + sumN B (fun b' => sumN T (fun t' =>
          lnNorm inp mean rstd T C b' t' i * dout (b'*T*C + t'*C + i)))
    ∧ (layernorm_backward dout inp weight mean rstd B T C st).2.2 i
      = st.2.2 i + sumN B (fun b' => sumN T (fun t' => dout (b'*T*C + t'*C + i))) := by
  refine ⟨?_, ?_, ?_⟩
  · refine iterN_eval B b _ (fun st : Buf × Buf × Buf => st.1 (b*T*C + t*C + i))
      (fun x => x + rstd (b*T + t) * (lnDnorm weight dout T C b t i
        - lnDnormMean weight dout T C b t
        - lnNorm inp mean rstd T C b t i
            * lnDnormNormMean dout inp weight mean rstd T C b t)) st hb ?_ ?_
    · intro st
      refine iterN_eval T t _ (fun st : Buf × Buf × Buf => st.1 (b*T*C + t*C + i))
        (fun x => x + rstd (b*T + t) * (lnDnorm weight dout T C b t i
          - lnDnormMean weight dout T C b t
          - lnNorm inp mean rstd T C b t i
              * lnDnormNormMean dout inp weight mean rstd T C b t)) st ht ?_ ?_
      · intro st
        refine iterN_eval C i _ (fun st : Buf × Buf × Buf => st.1 (b*T*C + t*C + i))
          (fun x => x + rstd (b*T + t) * (lnDnorm weight dout T C b t i
            - lnDnormMean weight dout T C b t
            - lnNorm inp mean rstd T C b t i
                * lnDnormNormMean dout inp weight mean rstd T C b t)) st hi ?_ ?_
        · intro st
          show wr st.1 (b*T*C + t*C + i) _ (b*T*C + t*C + i) = _
          rw [wr_same]; ring
        · intro i' hi' hne st
          exact wr_ne _ _ _ _ (by omega)
      · intro t' ht' hne st
        refine iterN_keep C _ (fun st : Buf × Buf × Buf => st.1 (b*T*C + t*C + i)) st ?_
        intro i' hi' st
        exact wr_ne _ _ _ _ ((idx3_ne ht' ht hi' hi
          (by intro hx; exact hne hx.2.1)).symm)
    · intro b' hb' hne st
      refine iterN_keep T _ (fun st : Buf × Buf × Buf => st.1 (b*T*C + t*C + i)) st ?_
      intro t' ht' st
      refine iterN_keep C _ (fun st : Buf × Buf × Buf => st.1 (b*T*C + t*C + i)) st ?_
      intro i' hi' st
      exact wr_ne _ _ _ _ ((idx3_ne ht' ht hi' hi
        (by intro hx; exact hne hx.1)).symm)
  · refine iterN_addAll B _ (fun st : Buf × Buf × Buf => st.2.1 i)
      (fun b' => sumN T (fun t' =>
        lnNorm inp mean rstd T C b' t' i * dout (b'*T*C + t'*C + i))) st ?_
    intro b' hb' st
    refine iterN_addAll T _ (fun st : Buf × Buf × Buf => st.2.1 i)
      (fun t' => lnNorm inp mean rstd T C b' t' i * dout (b'*T*C + t'*C + i)) st ?_
    intro t' ht' st
    refine iterN_eval C i _ (fun st : Buf × Buf × Buf => st.2.1 i)
      (fun x => x + lnNorm inp mean rstd T C b' t' i * dout (b'*T*C + t'*C + i)) st hi ?_ ?_
    · intro st
      show wr st.2.1 i _ i = _
      rw [wr_same]
    · intro i' hi' hne st
      exact wr_ne _ _ _ _ (by omega)
  · refine iterN_addAll B _ (fun st : Buf × Buf × Buf => st.2.2 i)
      (fun b' => sumN T (fun t' => dout (b'*T*C + t'*C + i))) st ?_
    intro b' hb' st
    refine iterN_addAll T _ (fun st : Buf × Buf × Buf => st.2.2 i)
      (fun t' => dout (b'*T*C + t'*C + i)) st ?_
    intro t' ht' st
    refine iterN_eval C i _ (fun st : Buf × Buf × Buf => st.2.2 i)
      (fun x => x + dout (b'*T*C + t'*C + i)) st hi ?_ ?_
    · intro st
      show wr st.2.2 i _ i = _
      rw [wr_same]
    · intro i' hi' hne st
      exact wr_ne _ _ _ _ (by omega)

theorem layernorm_backward_spec_witness :
    (0:ℕ) < 1 ∧
    (layernorm_backward (fun _ => 1) (fun _ => 2) (fun _ => 3) (fun _ => 4) (fun _ => 5)
        1 1 1 ((fun _ => 0), (fun _ => 0), (fun _ => 0))).2.2 0
      = (fun _ : ℕ => (0:ℚ)) 0 + sumN 1 (fun b' => sumN 1 (fun t' =>
          (fun _ : ℕ => (1:ℚ)) (b'*1*1 + t'*1*1 + 0))) :=
  ⟨by omega,
   (layernorm_backward_spec (fun _ => 1) (fun _ => 2) (fun _ => 3) (fun _ => 4)
     (fun _ => 5) 1 1 1 ((fun _ => 0), (fun _ => 0), (fun _ => 0)) 0 0 0
     (by omega) (by omega) (by omega)).2.2⟩

/-!  ## softmax_forward  (util.rs lines 734-783)

Per (b,t) row of length Vp: running max over the first V logits, exponentiate
shifted logits into `probs` while accumulating `sum`, divide the first V
entries by `sum` (unconditionally), then write exact zeros over `[V, Vp)`.
The exponential of `f32` is the abstract parameter `E`.
-/

def smMax (logits : Buf) (T V Vp b t : ℕ) : ℚ :=
  (runMax (fun i => logits (b*T*Vp + t*Vp + i)) V).getD 0

def smSum (E : ℚ → ℚ) (logits : Buf) (T V Vp b t : ℕ) : ℚ :=
  sumN V (fun i => E (logits (b*T*Vp + t*Vp + i) - smMax logits T V Vp b t))

/-- The exp-and-accumulate pass of the softmax row: state is (sum, probs). -/
def smP2 (E : ℚ → ℚ) (logits : Buf) (T V Vp b t : ℕ) (p : Buf) : ℚ × Buf :=
  iterN V (fun i sp =>
    (sp.1 + E (logits (b*T*Vp + t*Vp + i) - smMax logits T V Vp b t),
     wr sp.2 (b*T*Vp + t*Vp + i)
       (E (logits (b*T*Vp + t*Vp + i) - smMax logits T V Vp b t)))) ((0:ℚ), p)

/-- The normalization pass followed by the padding pass of the softmax row. -/
def smRow (E : ℚ → ℚ) (logits : Buf) (T V Vp b t : ℕ) (p : Buf) : Buf :=
  iterN (Vp - V) (fun k pb => wr pb (b*T*Vp + t*Vp + V + k) 0)
    (iterN V (fun i pb =>
      wr pb (b*T*Vp + t*Vp + i)
        (pb (b*T*Vp + t*Vp + i) / (smP2 E logits T V Vp b t p).1))
      (smP2 E logits T V Vp b t p).2)

def softmax_forward (E : ℚ → ℚ) (logits : Buf) (B T V Vp : ℕ) (probs : Buf) : Buf :=
  iterN B (fun b p => iterN T (fun t p => smRow E logits T V Vp b t p) p) probs

theorem smP2_sum (E : ℚ → ℚ) (logits : Buf) (T V Vp b t : ℕ) (p : Buf) :
    (smP2 E logits T V Vp b t p).1 = smSum E logits T V Vp b t := by
  have h := iterN_addAll V (fun i (sp : ℚ × Buf) =>
      (sp.1 + E (logits (b*T*Vp + t*Vp + i) - smMax logits T V Vp b t),
       wr sp.2 (b*T*Vp + t*Vp + i)
         (E (logits (b*T*Vp + t*Vp + i) - smMax logits T V Vp b t))))
    (fun sp => sp.1)
    (fun i => E (logits (b*T*Vp + t*Vp + i) - smMax logits T V Vp b t))
    ((0 : ℚ), p) (fun i hi sp => rfl)
  simpa [smP2, smSum] using h

theorem smP2_val (E : ℚ → ℚ) (logits : Buf) (T V Vp b t : ℕ) (p : Buf)
    (i : ℕ) (hi : i < V) :
    (smP2 E logits T V Vp b t p).2 (b*T*Vp + t*Vp + i)
    = E (logits (b*T*Vp + t*Vp + i) - smMax logits T V Vp b t) := by
  refine iterN_eval V i _ (fun sp : ℚ × Buf => sp.2 (b*T*Vp + t*Vp + i))
    (fun _ => E (logits (b*T*Vp + t*Vp + i) - smMax logits T V Vp b t)) ((0:ℚ), p) hi
    (fun sp => by simp) ?_
  intro i' hi' hne sp
  exact wr_ne _ _ _ _ (by omega)

/-- Claim C6 row-level fact: the normalized value at channel `i < V`. -/
theorem smRow_val (E : ℚ → ℚ) (logits : Buf) (T V Vp b t : ℕ) (p : Buf)
    (i : ℕ) (hi : i < V) :
    smRow E logits T V Vp b t p (b*T*Vp + t*Vp + i)
    = E (logits (b*T*Vp + t*Vp + i) - smMax logits T V Vp b t)
        / smSum E logits T V Vp b t := by
  unfold smRow
  rw [iterN_keep (Vp - V) _ (fun pb : Buf => pb (b*T*Vp + t*Vp + i)) _
    (fun k hk pb => wr_ne _ _ _ _ (by omega))]
  have h3 := iterN_eval V i
    (fun i' pb => wr pb (b*T*Vp + t*Vp + i')
      (pb (b*T*Vp + t*Vp + i') / (smP2 E logits T V Vp b t p).1))
    (fun pb : Buf => pb (b*T*Vp + t*Vp + i))
    (fun x => x / (smP2 E logits T V Vp b t p).1)
    ((smP2 E logits T V Vp b t p).2) hi (fun pb => by simp)
    (fun i' hi' hne pb => wr_ne _ _ _ _ (by omega))
  dsimp only at h3
  rw [h3, smP2_val E logits T V Vp b t p i hi, smP2_sum E logits T V Vp b t p]

/-- Claim C6 row-level fact: the padded range is written to exact zero. -/
theorem smRow_pad (E : ℚ → ℚ) (logits : Buf) (T V Vp b t : ℕ) (p : Buf)
    (i : ℕ) (hiV : V ≤ i) (hiVp : i < Vp) :
    smRow E logits T V Vp b t p (b*T*Vp + t*Vp + i) = 0 := by
  unfold smRow
  refine iterN_eval (Vp - V) (i - V) _ (fun pb : Buf => pb (b*T*Vp + t*Vp + i))
    (fun _ => 0) _ (by omega) ?_ ?_
  · intro pb
    have hx : b*T*Vp + t*Vp + V + (i - V) = b*T*Vp + t*Vp + i := by omega
    rw [hx]
    simp
  · intro k hk hne pb
    exact wr_ne _ _ _ _ (by omega)

/-- Rows other than (b,t) never touch the row of (b,t). -/
theorem smRow_frame (E : ℚ → ℚ) (logits : Buf) (T V Vp b t b' t' : ℕ) (p : Buf)
    (i : ℕ) (hiVp : i < Vp) (ht : t < T) (ht' : t' < T) (hVp : V ≤ Vp)
    (hne : ¬(b' = b ∧ t' = t)) :
    smRow E logits T V Vp b' t' p (b*T*Vp + t*Vp + i) = p (b*T*Vp + t*Vp + i) := by
  unfold smRow
  rw [iterN_keep (Vp - V) _ (fun pb : Buf => pb (b*T*Vp + t*Vp + i)) _ ?_]
  · rw [iterN_keep V _ (fun pb : Buf => pb (b*T*Vp + t*Vp + i)) _ ?_]
    · show (smP2 E logits T V Vp b' t' p).2 _ = _
      exact iterN_keep V _ (fun sp : ℚ × Buf => sp.2 (b*T*Vp + t*Vp + i)) _
        (fun i' hi' sp => wr_ne _ _ _ _ ((idx3_ne ht' ht (by omega) hiVp
          (by intro hx; exact hne ⟨hx.1, hx.2.1⟩)).symm))
    · intro i' hi' pb
      exact wr_ne _ _ _ _ ((idx3_ne ht' ht (by omega) hiVp
        (by intro hx; exact hne ⟨hx.1, hx.2.1⟩)).symm)
  · intro k hk pb
    refine wr_ne _ _ _ _ ?_
    have hx : b'*T*Vp + t'*Vp + V + k = b'*T*Vp + t'*Vp + (V + k) := by omega
    rw [hx]
    exact (idx3_ne ht' ht (by omega) hiVp
      (by intro h; exact hne ⟨h.1, h.2.1⟩)).symm

/-- Claim C6: per (b,t) row, `softmax_forward` produces, over the first V
channels, the exponentials of the max-shifted logits divided by their sum;
writes exact zeros over `[V, Vp)`; and on an all-equal row it emits the
uniform value `1/V` on the first V channels. -/
theorem softmax_forward_spec (E : ℚ → ℚ) (logits : Buf) (B T V Vp : ℕ) (probs : Buf)
    (b t : ℕ) (hb : b < B) (ht : t < T) (hVp : V ≤ Vp) :
    (∀ i, i < V →
      softmax_forward E logits B T V Vp probs (b*T*Vp + t*Vp + i)
        = E (logits (b*T*Vp + t*Vp + i) - smMax logits T V Vp b t)
            / smSum E logits T V Vp b t)
    ∧ (∀ i, V ≤ i → i < Vp →
      softmax_forward E logits B T V Vp probs (b*T*Vp + t*Vp + i) = 0)
    ∧ (∀ c : ℚ, (∀ i, i < V → logits (b*T*Vp + t*Vp + i) = c) → 0 < V → E 0 ≠ 0 →
      ∀ i, i < V →
        softmax_forward E logits B T V Vp probs (b*T*Vp + t*Vp + i) = 1 / (V:ℚ)) := by
  have hrow : ∀ (v : ℚ) (i : ℕ), i < Vp →
      (∀ p : Buf, smRow E logits T V Vp b t p (b*T*Vp + t*Vp + i) = v) →
      softmax_forward E logits B T V Vp probs (b*T*Vp + t*Vp + i) = v := by
    intro v i hiVp hval
    refine iterN_eval B b _ (fun p : Buf => p (b*T*Vp + t*Vp + i)) (fun _ => v) probs hb ?_ ?_
    · intro p
      refine iterN_eval T t _ (fun p : Buf => p (b*T*Vp + t*Vp + i)) (fun _ => v) p ht ?_ ?_
      · intro p; exact hval p
      · intro t' ht' hne p
        exact smRow_frame E logits T V Vp b t b t' p i hiVp ht ht' hVp
          (by intro hx; exact hne hx.2)
    · intro b' hb' hne p
      refine iterN_keep T _ (fun p : Buf => p (b*T*Vp + t*Vp + i)) p ?_
      intro t' ht' p
      exact smRow_frame E logits T V Vp b t b' t' p i hiVp ht ht' hVp
        (by intro hx; exact hne hx.1)
  have h1 : ∀ i, i < V →
      softmax_forward E logits B T V Vp probs (b*T*Vp + t*Vp + i)
        = E (logits (b*T*Vp + t*Vp + i) - smMax logits T V Vp b t)
            / smSum E logits T V Vp b t := by
    intro i hi
    exact hrow _ i (by omega) (fun p => smRow_val E logits T V Vp b t p i hi)
  refine ⟨h1, ?_, ?_⟩
  · intro i hiV hiVp
    exact hrow 0 i hiVp (fun p => smRow_pad E logits T V Vp b t p i hiV hiVp)
  · intro c hall hV hE i hi
    have hmax : smMax logits T V Vp b t = c := by
      unfold smMax
      rw [runMax_const _ c V hV (fun i' hi' => hall i' hi')]
      rfl
    have hsum : smSum E logits T V Vp b t = (V:ℚ) * E 0 := by
      unfold smSum
      rw [sumN_congr V _ (fun _ => E 0)
        (fun i' hi' => by rw [hall i' hi', hmax, sub_self]), sumN_const]
    have hVne : (V:ℚ) ≠ 0 := Nat.cast_ne_zero.mpr (by omega)
    rw [h1 i hi, hall i hi, hmax, sub_self, hsum,
      div_eq_div_iff (by exact mul_ne_zero hVne hE) hVne]
    ring

theorem softmax_forward_spec_witness :
    (0:ℕ) < 1 ∧ (1:ℕ) ≤ 2 ∧ ((fun _ : ℚ => (1:ℚ)) 0 ≠ 0) ∧
    softmax_forward (fun _ => 1) (fun _ => 0) 1 1 1 2 (fun _ => 5) (0*1*2 + 0*2 + 0)
      = 1 / ((1:ℕ):ℚ) :=
  ⟨by omega, by omega, by norm_num,
   (softmax_forward_spec (fun _ => 1) (fun _ => 0) 1 1 1 2 (fun _ => 5) 0 0
     (by omega) (by omega) (by omega)).2.2 0 (fun i _ => rfl) (by omega)
     (by norm_num) 0 (by omega)⟩

/-!  ## attention_forward  (util.rs lines 465-546)

Per (b,t,h), with `hs = C/NH`, `C3 = 3*C`, `scale = 1/sqrt(hs)`:
pass 1 writes the scaled query-key dot products into `preatt[b,h,t,0..=t]`
while tracking the running maximum (started from `NEG_INFINITY`, modelled as
`none`); pass 2 exponentiates the shifted scores into `att[b,h,t,0..=t]` and
accumulates `expsum`; pass 3 multiplies the prefix by
`if expsum == 0 { 0 } else { 1/expsum }` and overwrites the suffix `t2 > t`
with 0; pass 4 accumulates the value-weighted sum into `out[b,t,h,:]`.
-/

def attIdx (NH T b h t t2 : ℕ) : ℕ := b*NH*T*T + h*T*T + t*T + t2

theorem attIdx_flat (NH T b h t t2 : ℕ) :
    attIdx NH T b h t t2 = ((b*NH + h)*T + t)*T + t2 := by
  unfold attIdx; ring

theorem attIdx_ne {NH T b h t t2 b' h' t' t2' : ℕ}
    (hh : h < NH) (hh' : h' < NH) (ht : t < T) (ht' : t' < T)
    (h2 : t2 < T) (h2' : t2' < T)
    (hne : ¬(b = b' ∧ h = h' ∧ t = t' ∧ t2 = t2')) :
    attIdx NH T b h t t2 ≠ attIdx NH T b' h' t' t2' := by
  intro he
  rw [attIdx_flat, attIdx_flat] at he
  obtain ⟨ha, hb2⟩ := rowIdx_inj h2 h2' he
  obtain ⟨hc, hd⟩ := rowIdx_inj ht ht' ha
  obtain ⟨hx, hy⟩ := rowIdx_inj hh hh' hc
  exact hne ⟨hx, hy, hd, hb2⟩

/-- The scaled query-key dot product of pass 1:
`(sum_i q_i * k_i) * (1 / sqrt hs)`. -/
def attVal (sq : ℚ → ℚ) (inp : Buf) (T C NH b t h t2 : ℕ) : ℚ :=
  sumN (C/NH) (fun i => inp (b*T*(C*3) + t*(C*3) + h*(C/NH) + i)
                      * inp (b*T*(C*3) + t2*(C*3) + h*(C/NH) + C + i))
    * (1 / sq (((C/NH : ℕ)):ℚ))

/-- The final running maximum of pass 1 over the causal prefix. -/
def attMaxval (sq : ℚ → ℚ) (inp : Buf) (T C NH b t h : ℕ) : ℚ :=
  (runMax (attVal sq inp T C NH b t h) (t+1)).getD 0

/-- The exponentiated shifted score of pass 2. -/
def attExpv (E sq : ℚ → ℚ) (inp : Buf) (T C NH b t h t2 : ℕ) : ℚ :=
  E (attVal sq inp T C NH b t h t2 - attMaxval sq inp T C NH b t h)

/-- The running exponential sum of pass 2 over the causal prefix. -/
def attExpsum (E sq : ℚ → ℚ) (inp : Buf) (T C NH b t h : ℕ) : ℚ :=
  sumN (t+1) (attExpv E sq inp T C NH b t h)

/-- Pass 1: write scores into `preatt` and track the running maximum. -/
def attnP1 (sq : ℚ → ℚ) (inp : Buf) (T C NH b t h : ℕ)
    (pm : Buf × Option ℚ) : Buf × Option ℚ :=
  iterN (t+1) (fun t2 pm =>
    (wr pm.1 (attIdx NH T b h t t2) (attVal sq inp T C NH b t h t2),
     match pm.2 with
     | none => some (attVal sq inp T C NH b t h t2)
     | some mv => if mv < attVal sq inp T C NH b t h t2
                  then some (attVal sq inp T C NH b t h t2) else some mv)) pm

def attnPre (sq : ℚ → ℚ) (inp : Buf) (T C NH b t h : ℕ) (pre : Buf) : Buf :=
  (attnP1 sq inp T C NH b t h (pre, none)).1

/-- Pass 2: state is (expsum, att); reads the `preatt` written by pass 1. -/
def attnP2 (E : ℚ → ℚ) (NH T b h t : ℕ) (pre : Buf) (maxval : ℚ)
    (sb : ℚ × Buf) : ℚ × Buf :=
  iterN (t+1) (fun t2 sb =>
    (sb.1 + E (pre (attIdx NH T b h t t2) - maxval),
     wr sb.2 (attIdx NH T b h t t2) (E (pre (attIdx NH T b h t t2) - maxval)))) sb

def attnP2' (E sq : ℚ → ℚ) (inp : Buf) (T C NH b t h : ℕ) (pre att0 : Buf) : ℚ × Buf :=
  attnP2 E NH T b h t (attnPre sq inp T C NH b t h pre)
    ((attnP1 sq inp T C NH b t h (pre, none)).2.getD 0) ((0:ℚ), att0)

/-- The guarded reciprocal `if expsum == 0 { 0 } else { 1/expsum }`. -/
def attnInv (E sq : ℚ → ℚ) (inp : Buf) (T C NH b t h : ℕ) (pre att0 : Buf) : ℚ :=
  if (attnP2' E sq inp T C NH b t h pre att0).1 = 0 then 0
  else 1 / (attnP2' E sq inp T C NH b t h pre att0).1

/-- Pass 3: normalize the causal prefix, zero the suffix `t2 > t`. -/
def attnP3 (NH T b h t : ℕ) (inv : ℚ) (a : Buf) : Buf :=
  iterN T (fun t2 a =>
    if t2 ≤ t then wr a (attIdx NH T b h t t2) (a (attIdx NH T b h t t2) * inv)
    else wr a (attIdx NH T b h t t2) 0) a

def attnAtt (E sq : ℚ → ℚ) (inp : Buf) (T C NH b t h : ℕ) (pre att0 : Buf) : Buf :=
  attnP3 NH T b h t (attnInv E sq inp T C NH b t h pre att0)
    (attnP2' E sq inp T C NH b t h pre att0).2

/-- Pass 4: zero `out[b,t,h,:]`, then accumulate the value-weighted sum. -/
def attnP4 (inp : Buf) (T C NH b t h : ℕ) (a : Buf) (o : Buf) : Buf :=
  iterN (t+1) (fun t2 o => iterN (C/NH) (fun i o =>
    wr o (b*T*C + t*C + h*(C/NH) + i)
      (o (b*T*C + t*C + h*(C/NH) + i)
        + a (attIdx NH T b h t t2) * inp (b*T*(C*3) + t2*(C*3) + h*(C/NH) + 2*C + i))) o)
    (iterN (C/NH) (fun i o => wr o (b*T*C + t*C + h*(C/NH) + i) 0) o)

/-- The body of the rayon closure over one (b,t,h) triple; the state is
(out, preatt, att). -/
def attn_bth (E sq : ℚ → ℚ) (inp : Buf) (T C NH b t h : ℕ)
    (st : Buf × Buf × Buf) : Buf × Buf × Buf :=
  ( attnP4 inp T C NH b t h (attnAtt E sq inp T C NH b t h st.2.1 st.2.2) st.1
  , attnPre sq inp T C NH b t h st.2.1
  , attnAtt E sq inp T C NH b t h st.2.1 st.2.2 )

def attention_forward (E sq : ℚ → ℚ) (inp : Buf) (B T C NH : ℕ)
    (st : Buf × Buf × Buf) : Buf × Buf × Buf :=
  iterN B (fun b st => iterN T (fun t st =>
    iterN NH (fun h st => attn_bth E sq inp T C NH b t h st) st) st) st

theorem attIdx_ne_t2 {NH T b h t t2 t2' : ℕ} (hne : t2 ≠ t2') :
    attIdx NH T b h t t2 ≠ attIdx NH T b h t t2' := by
  unfold attIdx; omega

theorem runMax_eq_iterN (f : ℕ → ℚ) (n : ℕ) :
    runMax f n = iterN n (fun i m =>
      match m with
      | none => some (f i)
      | some mv => if mv < f i then some (f i) else some mv) none := by
  induction n with
  | zero => rfl
  | succ n ih =>
    show runMax f (n+1) = _
    rw [runMax, ih]
    rfl

theorem attnPre_val (sq : ℚ → ℚ) (inp : Buf) (T C NH b t h : ℕ) (pre : Buf)
    (t2 : ℕ) (h2 : t2 ≤ t) :
    attnPre sq inp T C NH b t h pre (attIdx NH T b h t t2)
      = attVal sq inp T C NH b t h t2 := by
  refine iterN_eval (t+1) t2 _ (fun pm : Buf × Option ℚ => pm.1 (attIdx NH T b h t t2))
    (fun _ => attVal sq inp T C NH b t h t2) (pre, none) (by omega)
    (fun pm => by simp) ?_
  intro t2' h2' hne pm
  dsimp only
  refine wr_ne _ _ _ _ ?_
  exact attIdx_ne_t2 (by omega)

theorem attnPre_frame (sq : ℚ → ℚ) (inp : Buf) (T C NH b t h : ℕ) (pre : Buf)
    (j : ℕ) (hj : ∀ t2, t2 ≤ t → j ≠ attIdx NH T b h t t2) :
    attnPre sq inp T C NH b t h pre j = pre j := by
  refine iterN_keep (t+1) _ (fun pm : Buf × Option ℚ => pm.1 j) (pre, none) ?_
  intro t2 h2 pm
  dsimp only
  exact wr_ne _ _ _ _ (hj t2 (by omega))

theorem attnP1_max (sq : ℚ → ℚ) (inp : Buf) (T C NH b t h : ℕ) (pre : Buf) :
    (attnP1 sq inp T C NH b t h (pre, none)).2
      = runMax (attVal sq inp T C NH b t h) (t+1) := by
  rw [runMax_eq_iterN]
  exact iterN_proj (t+1) _ (fun pm : Buf × Option ℚ => pm.2)
    (fun t2 m => match m with
      | none => some (attVal sq inp T C NH b t h t2)
      | some mv => if mv < attVal sq inp T C NH b t h t2
                   then some (attVal sq inp T C NH b t h t2) else some mv)
    (pre, none) (fun t2 h2 pm => rfl)

theorem attnP2'_sum (E sq : ℚ → ℚ) (inp : Buf) (T C NH b t h : ℕ) (pre att0 : Buf) :
    (attnP2' E sq inp T C NH b t h pre att0).1 = attExpsum E sq inp T C NH b t h := by
  have hacc := iterN_addAll (t+1) (fun t2 (sb : ℚ × Buf) =>
      (sb.1 + E (attnPre sq inp T C NH b t h pre (attIdx NH T b h t t2)
        - (attnP1 sq inp T C NH b t h (pre, none)).2.getD 0),
       wr sb.2 (attIdx NH T b h t t2)
         (E (attnPre sq inp T C NH b t h pre (attIdx NH T b h t t2)
           - (attnP1 sq inp T C NH b t h (pre, none)).2.getD 0))))
    (fun sb => sb.1)
    (fun t2 => E (attnPre sq inp T C NH b t h pre (attIdx NH T b h t t2)
      - (attnP1 sq inp T C NH b t h (pre, none)).2.getD 0))
    ((0:ℚ), att0) (fun t2 h2 sb => rfl)
  dsimp only at hacc
  show (attnP2 E NH T b h t _ _ _).1 = _
  unfold attnP2
  rw [hacc, zero_add]
  unfold attExpsum
  refine sumN_congr _ _ _ ?_
  intro t2 h2
  rw [attnPre_val sq inp T C NH b t h pre t2 (by omega), attnP1_max]
  rfl

theorem attnP2'_val (E sq : ℚ → ℚ) (inp : Buf) (T C NH b t h : ℕ) (pre att0 : Buf)
    (t2 : ℕ) (h2 : t2 ≤ t) :
    (attnP2' E sq inp T C NH b t h pre att0).2 (attIdx NH T b h t t2)
      = attExpv E sq inp T C NH b t h t2 := by
  show (attnP2 E NH T b h t _ _ _).2 _ = _
  unfold attnP2
  have hval := iterN_eval (t+1) t2 (fun t2' (sb : ℚ × Buf) =>
      (sb.1 + E (attnPre sq inp T C NH b t h pre (attIdx NH T b h t t2')
        - (attnP1 sq inp T C NH b t h (pre, none)).2.getD 0),
       wr sb.2 (attIdx NH T b h t t2')
         (E (attnPre sq inp T C NH b t h pre (attIdx NH T b h t t2')
           - (attnP1 sq inp T C NH b t h (pre, none)).2.getD 0))))
    (fun sb : ℚ × Buf => sb.2 (attIdx NH T b h t t2))
    (fun _ => E (attnPre sq inp T C NH b t h pre (attIdx NH T b h t t2)
      - (attnP1 sq inp T C NH b t h (pre, none)).2.getD 0))
    ((0:ℚ), att0) (by omega) (fun sb => by simp)
    (fun t2' h2' hne sb => by
      dsimp only
      refine wr_ne _ _ _ _ ?_
      exact attIdx_ne_t2 (by omega))
  dsimp only at hval
  rw [hval, attnPre_val sq inp T C NH b t h pre t2 (by omega), attnP1_max]
  rfl

theorem attnP2_frame (E : ℚ → ℚ) (NH T b h t : ℕ) (pre : Buf) (maxval : ℚ)
    (sb : ℚ × Buf) (j : ℕ) (hj : ∀ t2, t2 ≤ t → j ≠ attIdx NH T b h t t2) :
    (attnP2 E NH T b h t pre maxval sb).2 j = sb.2 j := by
  refine iterN_keep (t+1) _ (fun sb : ℚ × Buf => sb.2 j) sb ?_
  intro t2 h2 sb'
  dsimp only
  exact wr_ne _ _ _ _ (hj t2 (by omega))

theorem attnAtt_val (E sq : ℚ → ℚ) (inp : Buf) (T C NH b t h : ℕ) (pre att0 : Buf)
    (t2 : ℕ) (h2 : t2 ≤ t) (ht : t < T) :
    attnAtt E sq inp T C NH b t h pre att0 (attIdx NH T b h t t2)
      = attExpv E sq inp T C NH b t h t2
        * (if attExpsum E sq inp T C NH b t h = 0 then 0
           else 1 / attExpsum E sq inp T C NH b t h) := by
  unfold attnAtt attnP3
  have hval := iterN_eval T t2 (fun t2' a =>
      if t2' ≤ t
      then wr a (attIdx NH T b h t t2')
        (a (attIdx NH T b h t t2') * attnInv E sq inp T C NH b t h pre att0)
      else wr a (attIdx NH T b h t t2') 0)
    (fun a : Buf => a (attIdx NH T b h t t2))
    (fun x => x * attnInv E sq inp T C NH b t h pre att0)
    ((attnP2' E sq inp T C NH b t h pre att0).2) (by omega)
    (fun a => by
      dsimp only
      rw [if_pos h2]
      simp)
    (fun t2' h2' hne a => by
      dsimp only
      by_cases hc : t2' ≤ t
      · rw [if_pos hc]
        refine wr_ne _ _ _ _ ?_
        exact attIdx_ne_t2 (by omega)
      · rw [if_neg hc]
        refine wr_ne _ _ _ _ ?_
        exact attIdx_ne_t2 (by omega))
  dsimp only at hval
  rw [hval, attnP2'_val E sq inp T C NH b t h pre att0 t2 h2]
  unfold attnInv
  rw [attnP2'_sum E sq inp T C NH b t h pre att0]

theorem attnAtt_zero (E sq : ℚ → ℚ) (inp : Buf) (T C NH b t h : ℕ) (pre att0 : Buf)
    (t2 : ℕ) (h2 : t < t2) (h2T : t2 < T) :
    attnAtt E sq inp T C NH b t h pre att0 (attIdx NH T b h t t2) = 0 := by
  unfold attnAtt attnP3
  have hval := iterN_eval T t2 (fun t2' a =>
      if t2' ≤ t
      then wr a (attIdx NH T b h t t2')
        (a (attIdx NH T b h t t2') * attnInv E sq inp T C NH b t h pre att0)
      else wr a (attIdx NH T b h t t2') 0)
    (fun a : Buf => a (attIdx NH T b h t t2))
    (fun _ => (0:ℚ))
    ((attnP2' E sq inp T C NH b t h pre att0).2) h2T
    (fun a => by
      dsimp only
      rw [if_neg (by omega)]
      simp)
    (fun t2' h2' hne a => by
      dsimp only
      by_cases hc : t2' ≤ t
      · rw [if_pos hc]
        refine wr_ne _ _ _ _ ?_
        exact attIdx_ne_t2 (by omega)
      · rw [if_neg hc]
        refine wr_ne _ _ _ _ ?_
        exact attIdx_ne_t2 (by omega))
  dsimp only at hval
  exact hval

theorem attnAtt_frame (E sq : ℚ → ℚ) (inp : Buf) (T C NH b t h : ℕ) (pre att0 : Buf)
    (j : ℕ) (hj : ∀ t2, t2 < T → j ≠ attIdx NH T b h t t2) (ht : t < T) :
    attnAtt E sq inp T C NH b t h pre att0 j = att0 j := by
  unfold attnAtt attnP3
  rw [iterN_keep T _ (fun a : Buf => a j) _ ?_]
  · show (attnP2' E sq inp T C NH b t h pre att0).2 j = att0 j
    unfold attnP2'
    exact attnP2_frame E NH T b h t _ _ _ j (fun t2 h2 =>
      hj t2 (by omega))
  · intro t2 h2 a
    dsimp only
    by_cases hc : t2 ≤ t
    · rw [if_pos hc]; exact wr_ne _ _ _ _ (hj t2 (by omega))
    · rw [if_neg hc]; exact wr_ne _ _ _ _ (hj t2 (by omega))

/-- Claim C10: `attention_forward` writes `preatt[b,h,t,t2]` only for `t2 ≤ t`;
for `t < t2 < T` the entry keeps the value the caller buffer held before the
call (unlike `att`, whose suffix is overwritten with zeros). -/
theorem attention_forward_preatt_frame (E sq : ℚ → ℚ) (inp : Buf) (B T C NH : ℕ)
    (st : Buf × Buf × Buf) (b t h t2 : ℕ)
    (hb : b < B) (ht : t < T) (hh : h < NH) (h2 : t < t2) (h2T : t2 < T) :
    (attention_forward E sq inp B T C NH st).2.1 (attIdx NH T b h t t2)
      = st.2.1 (attIdx NH T b h t t2) := by
  refine iterN_keep B _ (fun st : Buf × Buf × Buf => st.2.1 (attIdx NH T b h t t2)) st ?_
  intro b' hb' st
  refine iterN_keep T _ (fun st : Buf × Buf × Buf => st.2.1 (attIdx NH T b h t t2)) st ?_
  intro t' ht' st
  refine iterN_keep NH _ (fun st : Buf × Buf × Buf => st.2.1 (attIdx NH T b h t t2)) st ?_
  intro h' hh' st
  show attnPre sq inp T C NH b' t' h' st.2.1 (attIdx NH T b h t t2)
    = st.2.1 (attIdx NH T b h t t2)
  refine attnPre_frame sq inp T C NH b' t' h' st.2.1 _ ?_
  intro t2'' h2''
  refine attIdx_ne hh hh' ht ht' h2T (by omega) ?_
  intro hx
  obtain ⟨e1, e2, e3, e4⟩ := hx
  omega

theorem attention_forward_preatt_frame_witness :
    (0:ℕ) < 1 ∧ (0:ℕ) < 2 ∧ (0:ℕ) < 1 ∧ (0:ℕ) < 1 ∧ (1:ℕ) < 2 ∧
    (attention_forward (fun _ => 1) (fun _ => 1) (fun _ => 1) 1 2 1 1
        ((fun _ => 0), (fun _ => 7), (fun _ => 0))).2.1 (attIdx 1 2 0 0 0 1)
      = (fun _ : ℕ => (7:ℚ)) (attIdx 1 2 0 0 0 1) :=
  ⟨by omega, by omega, by omega, by omega, by omega,
   attention_forward_preatt_frame (fun _ => 1) (fun _ => 1) (fun _ => 1) 1 2 1 1
     ((fun _ => 0), (fun _ => 7), (fun _ => 0)) 0 0 0 1
     (by omega) (by omega) (by omega) (by omega) (by omega)⟩

/-- Claim C2: after `attention_forward`, for every (b,t,h) the entry
`att[b,h,t,t2]` is 0 for every `t2` with `t < t2 < T` (explicit causal mask),
and for `t2 ≤ t` it is the exponentiated score multiplied by 0 when the running
`expsum` over the causal prefix is exactly 0 and by `1/expsum` otherwise. -/
theorem attention_forward_att_spec (E sq : ℚ → ℚ) (inp : Buf) (B T C NH : ℕ)
    (st : Buf × Buf × Buf) (b t h : ℕ) (hb : b < B) (ht : t < T) (hh : h < NH) :
    (∀ t2, t < t2 → t2 < T →
      (attention_forward E sq inp B T C NH st).2.2 (attIdx NH T b h t t2) = 0)
    ∧ (∀ t2, t2 ≤ t →
      (attention_forward E sq inp B T C NH st).2.2 (attIdx NH T b h t t2)
        = attExpv E sq inp T C NH b t h t2
          * (if attExpsum E sq inp T C NH b t h = 0 then 0
             else 1 / attExpsum E sq inp T C NH b t h)) := by
  have hcell : ∀ (v : ℚ) (t2 : ℕ), t2 < T →
      (∀ pre att0 : Buf,
        attnAtt E sq inp T C NH b t h pre att0 (attIdx NH T b h t t2) = v) →
      (attention_forward E sq inp B T C NH st).2.2 (attIdx NH T b h t t2) = v := by
    intro v t2 h2T hval
    refine iterN_eval B b _ (fun st : Buf × Buf × Buf => st.2.2 (attIdx NH T b h t t2))
      (fun _ => v) st hb ?_ ?_
    · intro st
      refine iterN_eval T t _ (fun st : Buf × Buf × Buf => st.2.2 (attIdx NH T b h t t2))
        (fun _ => v) st ht ?_ ?_
      · intro st
        refine iterN_eval NH h _ (fun st : Buf × Buf × Buf => st.2.2 (attIdx NH T b h t t2))
          (fun _ => v) st hh ?_ ?_
        · intro st
          exact hval st.2.1 st.2.2
        · intro h' hh' hne st
          show attnAtt E sq inp T C NH b t h' st.2.1 st.2.2 (attIdx NH T b h t t2)
            = st.2.2 (attIdx NH T b h t t2)
          refine attnAtt_frame E sq inp T C NH b t h' st.2.1 st.2.2 _ ?_ ht
          intro t2'' h2''
          refine attIdx_ne hh hh' ht ht h2T h2'' ?_
          intro hx
          exact hne hx.2.1.symm
      · intro t' ht' hne st
        refine iterN_keep NH _ (fun st : Buf × Buf × Buf => st.2.2 (attIdx NH T b h t t2)) st ?_
        intro h' hh' st
        show attnAtt E sq inp T C NH b t' h' st.2.1 st.2.2 (attIdx NH T b h t t2)
          = st.2.2 (attIdx NH T b h t t2)
        refine attnAtt_frame E sq inp T C NH b t' h' st.2.1 st.2.2 _ ?_ ht'
        intro t2'' h2''
        refine attIdx_ne hh hh' ht ht' h2T h2'' ?_
        intro hx
        exact hne hx.2.2.1.symm
    · intro b' hb' hne st
      refine iterN_keep T _ (fun st : Buf × Buf × Buf => st.2.2 (attIdx NH T b h t t2)) st ?_
      intro t' ht' st
      refine iterN_keep NH _ (fun st : Buf × Buf × Buf => st.2.2 (attIdx NH T b h t t2)) st ?_
      intro h' hh' st
      show attnAtt E sq inp T C NH b' t' h' st.2.1 st.2.2 (attIdx NH T b h t t2)
        = st.2.2 (attIdx NH T b h t t2)
      refine attnAtt_frame E sq inp T C NH b' t' h' st.2.1 st.2.2 _ ?_ ht'
      intro t2'' h2''
      refine attIdx_ne hh hh' ht ht' h2T h2'' ?_
      intro hx
      exact hne hx.1.symm
  constructor
  · intro t2 h2 h2T
    exact hcell 0 t2 h2T
      (fun pre att0 => attnAtt_zero E sq inp T C NH b t h pre att0 t2 h2 h2T)
  · intro t2 h2
    exact hcell _ t2 (by omega)
      (fun pre att0 => attnAtt_val E sq inp T C NH b t h pre att0 t2 h2 ht)

theorem attention_forward_att_spec_witness :
    (0:ℕ) < 1 ∧
    (attention_forward (fun _ => 1) (fun _ => 1) (fun _ => 1) 1 1 1 1
        ((fun _ => 0), (fun _ => 0), (fun _ => 0))).2.2 (attIdx 1 1 0 0 0 0)
      = attExpv (fun _ => 1) (fun _ => 1) (fun _ => 1) 1 1 1 0 0 0 0
        * (if attExpsum (fun _ => 1) (fun _ => 1) (fun _ => 1) 1 1 1 0 0 0 = 0 then 0
           else 1 / attExpsum (fun _ => 1) (fun _ => 1) (fun _ => 1) 1 1 1 0 0 0) :=
  ⟨by omega,
   (attention_forward_att_spec (fun _ => 1) (fun _ => 1) (fun _ => 1) 1 1 1 1
     ((fun _ => 0), (fun _ => 0), (fun _ => 0)) 0 0 0
     (by omega) (by omega) (by omega)).2 0 (by omega)⟩

/-!  ## matmul_forward_naive (util.rs lines 246-289) and
     matmul_forward (lines 308-361)

The naive path loops (b,t) in parallel, then `o`, accumulating
`val = bias[o] (or 0) + sum_i inp[bt*C+i] * weight[o*C+i]` and storing it at
`out[bt*OC + o]`.  The unrolled path requires `(B*T) % 8 == 0`, walks `obt`
over multiples of 8, keeps an 8-slot accumulator array per output channel
(each slot seeded with the bias), caches `w = weight[i + o*C]` and
multiply-accumulates it into all 8 slots, then stores the slots strided by OC.
A null bias pointer is `none`.
-/

def mmBias (bias : Option Buf) (o : ℕ) : ℚ :=
  match bias with
  | some bs => bs o
  | none => 0

/-- The per-(bt,o) accumulated value of the naive path. -/
def mmValN (inp weight : Buf) (bias : Option Buf) (C bt o : ℕ) : ℚ :=
  iterN C (fun i v => v + inp (bt*C + i) * weight (o*C + i)) (mmBias bias o)

def matmul_forward_naive (inp weight : Buf) (bias : Option Buf) (B T C OC : ℕ)
    (out : Buf) : Buf :=
  iterN B (fun b out => iterN T (fun t out =>
    iterN OC (fun o out =>
      wr out ((b*T + t)*OC + o) (mmValN inp weight bias C (b*T + t) o)) out) out) out

/-- The 8-slot accumulator array of the unrolled path for block base `obt` and
output channel `o`: seeded with the bias, then multiply-accumulated over `i`. -/
def mmResult (inp weight : Buf) (bias : Option Buf) (C obt o : ℕ) : Buf :=
  iterN C (fun i r =>
    iterN 8 (fun ibt r => wr r ibt (r ibt + inp ((obt + ibt)*C + i) * weight (i + o*C))) r)
    (iterN 8 (fun ibt r => wr r ibt (mmBias bias o)) (fun _ => (0:ℚ)))

def matmul_forward (inp weight : Buf) (bias : Option Buf) (B T C OC : ℕ)
    (out : Buf) : Buf :=
  if (B*T) % 8 ≠ 0 then matmul_forward_naive inp weight bias B T C OC out
  else
    iterN (B*T/8) (fun k out =>
      iterN OC (fun o out =>
        iterN 8 (fun ibt out =>
          wr out ((8*k + ibt)*OC + o)
            (mmResult inp weight bias C (8*k) o ibt)) out) out) out

theorem rowIdx_ne_bt {W bt o bt' o' : ℕ} (ho : o < W) (ho' : o' < W) (hne : bt ≠ bt') :
    bt*W + o ≠ bt'*W + o' :=
  fun he => hne (rowIdx_inj ho ho' he).1

theorem btLt {B T b t : ℕ} (hb : b < B) (ht : t < T) : b*T + t < B*T := by
  calc b*T + t < b*T + T := by omega
  _ = (b+1)*T := by ring
  _ ≤ B*T := Nat.mul_le_mul_right T hb

theorem mmResult_init (bias : Option Buf) (o j : ℕ) (hj : j < 8) :
    (iterN 8 (fun ibt r => wr r ibt (mmBias bias o)) (fun _ => (0:ℚ))) j
      = mmBias bias o := by
  refine iterN_eval 8 j _ (fun r : Buf => r j) (fun _ => mmBias bias o) _ hj
    (fun r => by simp) ?_
  intro i hi hne r
  exact wr_ne _ _ _ _ (by omega)

theorem mmResult_val (inp weight : Buf) (bias : Option Buf) (C obt o ibt : ℕ)
    (hibt : ibt < 8) :
    mmResult inp weight bias C obt o ibt
      = iterN C (fun i v => v + inp ((obt + ibt)*C + i) * weight (i + o*C))
          (mmBias bias o) := by
  unfold mmResult
  have hproj := iterN_proj C (fun i r =>
      iterN 8 (fun ibt' r =>
        wr r ibt' (r ibt' + inp ((obt + ibt')*C + i) * weight (i + o*C))) r)
    (fun r : Buf => r ibt)
    (fun i v => v + inp ((obt + ibt)*C + i) * weight (i + o*C))
    (iterN 8 (fun ibt' r => wr r ibt' (mmBias bias o)) (fun _ => (0:ℚ)))
    ?_
  · rw [hproj, mmResult_init bias o ibt hibt]
  · intro i hi r
    refine iterN_eval 8 ibt _ (fun r : Buf => r ibt)
      (fun v => v + inp ((obt + ibt)*C + i) * weight (i + o*C)) r hibt
      (fun r' => by simp) ?_
    intro ibt' hibt' hne r'
    exact wr_ne _ _ _ _ (by omega)

/-- The naive path stores `mmValN bt o` at `bt*OC + o`. -/
theorem matmul_naive_at (inp weight : Buf) (bias : Option Buf) (B T C OC : ℕ)
    (out : Buf) (bt o : ℕ) (hbt : bt < B*T) (ho : o < OC) :
    matmul_forward_naive inp weight bias B T C OC out (bt*OC + o)
      = mmValN inp weight bias C bt o := by
  have hT : 0 < T := by
    rcases Nat.eq_zero_or_pos T with h0 | h
    · rw [h0, Nat.mul_zero] at hbt; omega
    · exact h
  have hb : bt / T < B := (Nat.div_lt_iff_lt_mul hT).mpr (by
    calc bt < B * T := hbt
    _ = B * T := rfl)
  have ht : bt % T < T := Nat.mod_lt _ hT
  have hflat : (bt / T)*T + bt % T = bt := by
    rw [Nat.mul_comm]
    exact Nat.div_add_mod bt T
  refine iterN_eval B (bt / T) _ (fun out : Buf => out (bt*OC + o))
    (fun _ => mmValN inp weight bias C bt o) out hb ?_ ?_
  · intro out
    refine iterN_eval T (bt % T) _ (fun out : Buf => out (bt*OC + o))
      (fun _ => mmValN inp weight bias C bt o) out ht ?_ ?_
    · intro out
      refine iterN_eval OC o _ (fun out : Buf => out (bt*OC + o))
        (fun _ => mmValN inp weight bias C bt o) out ho ?_ ?_
      · intro out
        dsimp only
        rw [hflat]
        simp
      · intro o' ho' hne out
        dsimp only
        rw [hflat]
        refine wr_ne _ _ _ _ ?_
        omega
    · intro t' ht' hne out
      refine iterN_keep OC _ (fun out : Buf => out (bt*OC + o)) out ?_
      intro o' ho' out
      refine wr_ne _ _ _ _ ?_
      refine (rowIdx_ne_bt ho' ho ?_).symm
      omega
  · intro b' hb' hne out
    refine iterN_keep T _ (fun out : Buf => out (bt*OC + o)) out ?_
    intro t' ht' out
    refine iterN_keep OC _ (fun out : Buf => out (bt*OC + o)) out ?_
    intro o' ho' out
    refine wr_ne _ _ _ _ ?_
    refine (rowIdx_ne_bt ho' ho ?_).symm
    intro he
    have hx := @rowIdx_inj T b' t' (bt/T) (bt % T) ht' ht (by omega : b'*T + t' = (bt/T)*T + bt % T)
    exact hne hx.1

/-- The naive path leaves indices outside the written rectangle unchanged. -/
theorem matmul_naive_frame (inp weight : Buf) (bias : Option Buf) (B T C OC : ℕ)
    (out : Buf) (j : ℕ) (hj : ∀ bt, bt < B*T → ∀ o, o < OC → j ≠ bt*OC + o) :
    matmul_forward_naive inp weight bias B T C OC out j = out j := by
  refine iterN_keep B _ (fun out : Buf => out j) out ?_
  intro b' hb' out
  refine iterN_keep T _ (fun out : Buf => out j) out ?_
  intro t' ht' out
  refine iterN_keep OC _ (fun out : Buf => out j) out ?_
  intro o' ho' out
  exact wr_ne _ _ _ _ (hj (b'*T + t') (btLt hb' ht') o' ho')

/-- The unrolled path stores `mmResult` slot `bt % 8` at `bt*OC + o`. -/
theorem matmul_unrolled_at (inp weight : Buf) (bias : Option Buf) (B T C OC : ℕ)
    (out : Buf) (bt o : ℕ) (hbt : bt < B*T) (ho : o < OC) (h8 : (B*T) % 8 = 0) :
    (iterN (B*T/8) (fun k out =>
      iterN OC (fun o out =>
        iterN 8 (fun ibt out =>
          wr out ((8*k + ibt)*OC + o)
            (mmResult inp weight bias C (8*k) o ibt)) out) out) out) (bt*OC + o)
      = mmResult inp weight bias C (8*(bt/8)) o (bt % 8) := by
  have hdm : 8*(bt/8) + bt % 8 = bt := Nat.div_add_mod bt 8
  have hk : bt/8 < B*T/8 := by
    have hmul : B*T/8*8 = B*T := Nat.div_mul_cancel (Nat.dvd_of_mod_eq_zero h8)
    refine (Nat.div_lt_iff_lt_mul (by omega)).mpr ?_
    omega
  refine iterN_eval (B*T/8) (bt/8) _ (fun out : Buf => out (bt*OC + o))
    (fun _ => mmResult inp weight bias C (8*(bt/8)) o (bt % 8)) out hk ?_ ?_
  · intro out
    refine iterN_eval OC o _ (fun out : Buf => out (bt*OC + o))
      (fun _ => mmResult inp weight bias C (8*(bt/8)) o (bt % 8)) out ho ?_ ?_
    · intro out
      refine iterN_eval 8 (bt % 8) _ (fun out : Buf => out (bt*OC + o))
        (fun _ => mmResult inp weight bias C (8*(bt/8)) o (bt % 8)) out (by omega) ?_ ?_
      · intro out
        dsimp only
        rw [hdm]
        simp
      · intro ibt' hibt' hne out
        dsimp only
        refine wr_ne _ _ _ _ ?_
        refine rowIdx_ne_bt ho ho ?_
        omega
    · intro o' ho' hne out
      refine iterN_keep 8 _ (fun out : Buf => out (bt*OC + o)) out ?_
      intro ibt' hibt' out
      refine wr_ne _ _ _ _ ?_
      intro he
      have hx := @rowIdx_inj OC bt o (8*(bt/8) + ibt') o' ho ho' he
      exact hne hx.2.symm
  · intro k' hk' hne out
    refine iterN_keep OC _ (fun out : Buf => out (bt*OC + o)) out ?_
    intro o' ho' out
    refine iterN_keep 8 _ (fun out : Buf => out (bt*OC + o)) out ?_
    intro ibt' hibt' out
    refine wr_ne _ _ _ _ ?_
    refine rowIdx_ne_bt ho ho' ?_
    omega

/-- The unrolled path leaves indices outside the written rectangle unchanged. -/
theorem matmul_unrolled_frame (inp weight : Buf) (bias : Option Buf) (B T C OC : ℕ)
    (out : Buf) (j : ℕ) (h8 : (B*T) % 8 = 0)
    (hj : ∀ bt, bt < B*T → ∀ o, o < OC → j ≠ bt*OC + o) :
    (iterN (B*T/8) (fun k out =>
      iterN OC (fun o out =>
        iterN 8 (fun ibt out =>
          wr out ((8*k + ibt)*OC + o)
            (mmResult inp weight bias C (8*k) o ibt)) out) out) out) j = out j := by
  have hmul : B*T/8*8 = B*T := Nat.div_mul_cancel (Nat.dvd_of_mod_eq_zero h8)
  refine iterN_keep (B*T/8) _ (fun out : Buf => out j) out ?_
  intro k' hk' out
  refine iterN_keep OC _ (fun out : Buf => out j) out ?_
  intro o' ho' out
  refine iterN_keep 8 _ (fun out : Buf => out j) out ?_
  intro ibt' hibt' out
  refine wr_ne _ _ _ _ ?_
  refine hj (8*k' + ibt') ?_ o' ho'
  omega

/-- Claim C1: `matmul_forward` computes exactly the same output buffer as
`matmul_forward_naive` on the same inputs, whether the bias is present or
null.  When `(B*T) % 8 != 0` this is the literal fallback call; when
`(B*T) % 8 == 0` the unrolled-by-8 path writes the same values. -/
theorem matmul_forward_eq_naive (inp weight : Buf) (bias : Option Buf)
    (B T C OC : ℕ) (out : Buf) :
    matmul_forward inp weight bias B T C OC out
      = matmul_forward_naive inp weight bias B T C OC out := by
  unfold matmul_forward
  by_cases h8 : (B*T) % 8 ≠ 0
  · rw [if_pos h8]
  · rw [if_neg h8]
    push_neg at h8
    funext j
    by_cases hw : ∃ bt, bt < B*T ∧ ∃ o, o < OC ∧ j = bt*OC + o
    · obtain ⟨bt, hbt, o, ho, rfl⟩ := hw
      rw [matmul_unrolled_at inp weight bias B T C OC out bt o hbt ho h8,
        matmul_naive_at inp weight bias B T C OC out bt o hbt ho,
        mmResult_val inp weight bias C (8*(bt/8)) o (bt % 8) (by omega)]
      have hdm : 8*(bt/8) + bt % 8 = bt := Nat.div_add_mod bt 8
      rw [hdm]
      unfold mmValN
      refine iterN_congr C _ _ _ ?_
      intro i hi v
      rw [Nat.add_comm i (o*C)]
    · push_neg at hw
      rw [matmul_unrolled_frame inp weight bias B T C OC out j h8 ?hja,
        matmul_naive_frame inp weight bias B T C OC out j ?hja]
      intro bt hbt o ho
      exact hw bt hbt o ho

/-!  ## The remaining backward primitives, for the accumulator-semantics claim

`encoder_backward` (util.rs lines 59-86), `gelu_backward` (lines 653-683),
`matmul_backward` (lines 383-451, with its two independent phases), and
`attention_backward` (lines 563-620).  `matmul_backward` takes the nullable
`dbias` as a flag plus buffer; with the flag false the `dbias` buffer is never
written, matching the null-pointer check of the source.
-/

def encoder_backward (dout : Buf) (tok : ℕ → ℕ) (B T C : ℕ) (st : Buf × Buf) :
    Buf × Buf :=
  iterN B (fun b st => iterN T (fun t st =>
    iterN C (fun i (st : Buf × Buf) =>
      ( wr st.1 (tok (b*T + t)*C + i)
          (st.1 (tok (b*T + t)*C + i) + dout (b*T*C + t*C + i))
      , wr st.2 (t*C + i) (st.2 (t*C + i) + dout (b*T*C + t*C + i)) )) st) st) st

/-- The local gradient of the tanh-approximated GELU; `th`, `ch` and the
constant `k = sqrt(2/pi)` are abstract, `0.044715` is exact. -/
def geluLocalGrad (th ch : ℚ → ℚ) (k : ℚ) (x : ℚ) : ℚ :=
  1/2 * (1 + th (k * (x + 44715/1000000 * x * x * x)))
    + x * (1/2)
        * (1 / (ch (k * (x + 44715/1000000 * x * x * x))
              * ch (k * (x + 44715/1000000 * x * x * x))))
        * k * (1 + 3 * (44715/1000000) * x * x)

def gelu_backward (th ch : ℚ → ℚ) (k : ℚ) (inp dout : Buf) (N : ℕ) (dinp : Buf) : Buf :=
  iterN N (fun i d => wr d i (d i + geluLocalGrad th ch k (inp i) * dout i)) dinp

/-- Phase A of `matmul_backward`: the input gradient. -/
def matmul_backward_dinp (dout weight : Buf) (B T C OC : ℕ) (dinp : Buf) : Buf :=
  iterN B (fun b d => iterN T (fun t d =>
    iterN OC (fun o d => iterN C (fun i d =>
      wr d ((b*T + t)*C + i)
        (d ((b*T + t)*C + i) + weight (o*C + i) * dout ((b*T + t)*OC + o))) d) d) d) dinp

/-- Phase B of `matmul_backward`: the weight and (optional) bias gradients. -/
def matmul_backward_dwb (dout inp : Buf) (hasBias : Bool) (B T C OC : ℕ)
    (s : Buf × Buf) : Buf × Buf :=
  iterN OC (fun o s => iterN B (fun b s => iterN T (fun t s =>
    iterN C (fun i (s : Buf × Buf) =>
      ( wr s.1 (o*C + i) (s.1 (o*C + i) + inp ((b*T + t)*C + i) * dout ((b*T + t)*OC + o))
      , s.2 ))
      (if hasBias then (s.1, wr s.2 o (s.2 o + dout ((b*T + t)*OC + o))) else s)) s) s) s

def matmul_backward (dout inp weight : Buf) (hasBias : Bool) (B T C OC : ℕ)
    (st : Buf × Buf × Buf) : Buf × Buf × Buf :=
  ( matmul_backward_dinp dout weight B T C OC st.1
  , (matmul_backward_dwb dout inp hasBias B T C OC (st.2.1, st.2.2)).1
  , (matmul_backward_dwb dout inp hasBias B T C OC (st.2.1, st.2.2)).2 )

/-- Attention backward pass 4 (value accumulation), state (dinp, dpreatt, datt). -/
def attnBwd4 (dout inp att : Buf) (T C NH b t h : ℕ) (st : Buf × Buf × Buf) :
    Buf × Buf × Buf :=
  iterN (t+1) (fun t2 st => iterN (C/NH) (fun i (st : Buf × Buf × Buf) =>
    ( wr st.1 (b*T*(C*3) + t2*(C*3) + h*(C/NH) + 2*C + i)
        (st.1 (b*T*(C*3) + t2*(C*3) + h*(C/NH) + 2*C + i)
          + att (attIdx NH T b h t t2) * dout (b*T*C + t*C + h*(C/NH) + i))
    , st.2.1
    , wr st.2.2 (attIdx NH T b h t t2)
        (st.2.2 (attIdx NH T b h t t2)
          + inp (b*T*(C*3) + t2*(C*3) + h*(C/NH) + 2*C + i)
            * dout (b*T*C + t*C + h*(C/NH) + i)) )) st) st

/-- Attention backward passes 2-3 (softmax Jacobian): reads the `datt` buffer
just augmented by pass 4 and accumulates into `dpreatt`. -/
def attnBwd23 (att : Buf) (T NH b t h : ℕ) (st : Buf × Buf × Buf) :
    Buf × Buf × Buf :=
  iterN (t+1) (fun t2 st => iterN (t+1) (fun t3 (st : Buf × Buf × Buf) =>
    ( st.1
    , wr st.2.1 (attIdx NH T b h t t3)
        (st.2.1 (attIdx NH T b h t t3)
          + att (attIdx NH T b h t t2)
            * ((if t2 = t3 then 1 else 0) - att (attIdx NH T b h t t3))
            * st.2.2 (attIdx NH T b h t t2))
    , st.2.2 )) st) st

/-- Attention backward pass 1 (query-key matmul): reads the `dpreatt` buffer
just augmented by passes 2-3. -/
def attnBwd1 (sq : ℚ → ℚ) (inp : Buf) (T C NH b t h : ℕ) (st : Buf × Buf × Buf) :
    Buf × Buf × Buf :=
  iterN (t+1) (fun t2 st => iterN (C/NH) (fun i (st : Buf × Buf × Buf) =>
    let qi := b*T*(C*3) + t*(C*3) + h*(C/NH) + i
    let ki := b*T*(C*3) + t2*(C*3) + h*(C/NH) + C + i
    let d1 := wr st.1 qi
      (st.1 qi + inp ki * st.2.1 (attIdx NH T b h t t2) * (1 / sq (((C/NH : ℕ)):ℚ)))
    ( wr d1 ki
        (d1 ki + inp qi * st.2.1 (attIdx NH T b h t t2) * (1 / sq (((C/NH : ℕ)):ℚ)))
    , st.2.1, st.2.2 )) st) st

def attnBwd_bth (sq : ℚ → ℚ) (dout inp att : Buf) (T C NH b t h : ℕ)
    (st : Buf × Buf × Buf) : Buf × Buf × Buf :=
  attnBwd1 sq inp T C NH b t h
    (attnBwd23 att T NH b t h
      (attnBwd4 dout inp att T C NH b t h st))

def attention_backward (sq : ℚ → ℚ) (dout inp att : Buf) (B T C NH : ℕ)
    (st : Buf × Buf × Buf) : Buf × Buf × Buf :=
  iterN B (fun b st => iterN T (fun t st =>
    iterN NH (fun h st => attnBwd_bth sq dout inp att T C NH b t h st) st) st) st

/-!  ## Accumulator semantics (claim C8)

Every backward primitive other than `attention_backward` only performs
`buffer[idx] += increment` stores whose increments read nothing but the
read-only inputs, so the whole call commutes with translating the gradient
buffers; calling it twice therefore adds the same increment twice.
`attention_backward` reads its own `datt`/`dpreatt` output buffers while
accumulating, which breaks this property.
-/

/-- The all-zeros buffer. -/
def zb : Buf := fun _ => 0

/-- Pointwise sum of two buffers. -/
def addB (g h : Buf) : Buf := fun j => g j + h j

theorem addB_zb (g : Buf) : addB zb g = g := by
  funext j
  show (0:ℚ) + g j = g j
  rw [zero_add]

/-- A `+=` store commutes with translating the buffer. -/
theorem wr_acc_shift (g h : Buf) (a : ℕ) (d : ℚ) :
    wr (addB g h) a (addB g h a + d) = addB (wr g a (g a + d)) h := by
  funext j
  simp only [addB, wr]
  split
  · rename_i hj
    subst hj
    ring
  · rfl

theorem residual_backward_shift (dout : Buf) (N : ℕ) (g1 g2 h1 h2 : Buf) :
    residual_backward dout N (addB g1 h1, addB g2 h2)
      = (addB (residual_backward dout N (g1, g2)).1 h1,
         addB (residual_backward dout N (g1, g2)).2 h2) := by
  unfold residual_backward
  refine iterN_comm N _ (fun s : Buf × Buf => (addB s.1 h1, addB s.2 h2)) (g1, g2) ?_
  intro i hi s
  dsimp only
  rw [wr_acc_shift s.1 h1 i (dout i), wr_acc_shift s.2 h2 i (dout i)]

theorem gelu_backward_shift (th ch : ℚ → ℚ) (k : ℚ) (inp dout : Buf) (N : ℕ)
    (g hb : Buf) :
    gelu_backward th ch k inp dout N (addB g hb)
      = addB (gelu_backward th ch k inp dout N g) hb := by
  unfold gelu_backward
  refine iterN_comm N _ (fun d => addB d hb) g ?_
  intro i hi d
  dsimp only
  rw [wr_acc_shift d hb i _]

theorem crossentropy_softmax_backward_shift (dlosses probs : Buf) (tgt : ℕ → ℕ)
    (B T V Vp : ℕ) (g hb : Buf) :
    crossentropy_softmax_backward dlosses probs tgt B T V Vp (addB g hb)
      = addB (crossentropy_softmax_backward dlosses probs tgt B T V Vp g) hb := by
  unfold crossentropy_softmax_backward
  refine iterN_comm B _ (fun d => addB d hb) g ?_
  intro b hB d
  dsimp only
  refine iterN_comm T _ (fun d => addB d hb) d ?_
  intro t hT d
  dsimp only
  refine iterN_comm V _ (fun d => addB d hb) d ?_
  intro i hi d
  dsimp only
  rw [wr_acc_shift d hb _ _]

theorem encoder_backward_shift (dout : Buf) (tok : ℕ → ℕ) (B T C : ℕ)
    (g1 g2 h1 h2 : Buf) :
    encoder_backward dout tok B T C (addB g1 h1, addB g2 h2)
      = (addB (encoder_backward dout tok B T C (g1, g2)).1 h1,
         addB (encoder_backward dout tok B T C (g1, g2)).2 h2) := by
  unfold encoder_backward
  refine iterN_comm B _ (fun s : Buf × Buf => (addB s.1 h1, addB s.2 h2)) (g1, g2) ?_
  intro b hB s
  dsimp only
  refine iterN_comm T _ (fun s : Buf × Buf => (addB s.1 h1, addB s.2 h2)) s ?_
  intro t hT s
  dsimp only
  refine iterN_comm C _ (fun s : Buf × Buf => (addB s.1 h1, addB s.2 h2)) s ?_
  intro i hi s
  dsimp only
  rw [wr_acc_shift s.1 h1 _ _, wr_acc_shift s.2 h2 _ _]

theorem layernorm_backward_shift (dout inp weight mean rstd : Buf) (B T C : ℕ)
    (g1 g2 g3 h1 h2 h3 : Buf) :
    layernorm_backward dout inp weight mean rstd B T C
        (addB g1 h1, addB g2 h2, addB g3 h3)
      = (addB (layernorm_backward dout inp weight mean rstd B T C (g1, g2, g3)).1 h1,
         addB (layernorm_backward dout inp weight mean rstd B T C (g1, g2, g3)).2.1 h2,
         addB (layernorm_backward dout inp weight mean rstd B T C (g1, g2, g3)).2.2 h3) := by
  unfold layernorm_backward
  refine iterN_comm B _
    (fun s : Buf × Buf × Buf => (addB s.1 h1, addB s.2.1 h2, addB s.2.2 h3)) (g1, g2, g3) ?_
  intro b hB s
  dsimp only
  refine iterN_comm T _
    (fun s : Buf × Buf × Buf => (addB s.1 h1, addB s.2.1 h2, addB s.2.2 h3)) s ?_
  intro t hT s
  dsimp only
  refine iterN_comm C _
    (fun s : Buf × Buf × Buf => (addB s.1 h1, addB s.2.1 h2, addB s.2.2 h3)) s ?_
  intro i hi s
  dsimp only
  rw [wr_acc_shift s.1 h1 _ _, wr_acc_shift s.2.1 h2 _ _, wr_acc_shift s.2.2 h3 _ _]

theorem matmul_backward_dinp_shift (dout weight : Buf) (B T C OC : ℕ) (g hb : Buf) :
    matmul_backward_dinp dout weight B T C OC (addB g hb)
      = addB (matmul_backward_dinp dout weight B T C OC g) hb := by
  unfold matmul_backward_dinp
  refine iterN_comm B _ (fun d => addB d hb) g ?_
  intro b hB d
  dsimp only
  refine iterN_comm T _ (fun d => addB d hb) d ?_
  intro t hT d
  dsimp only
  refine iterN_comm OC _ (fun d => addB d hb) d ?_
  intro o ho d
  dsimp only
  refine iterN_comm C _ (fun d => addB d hb) d ?_
  intro i hi d
  dsimp only
  rw [wr_acc_shift d hb _ _]

theorem matmul_backward_dwb_shift (dout inp : Buf) (hasBias : Bool) (B T C OC : ℕ)
    (g1 g2 h1 h2 : Buf) :
    matmul_backward_dwb dout inp hasBias B T C OC (addB g1 h1, addB g2 h2)
      = (addB (matmul_backward_dwb dout inp hasBias B T C OC (g1, g2)).1 h1,
         addB (matmul_backward_dwb dout inp hasBias B T C OC (g1, g2)).2 h2) := by
  unfold matmul_backward_dwb
  refine iterN_comm OC _ (fun s : Buf × Buf => (addB s.1 h1, addB s.2 h2)) (g1, g2) ?_
  intro o ho s
  dsimp only
  refine iterN_comm B _ (fun s : Buf × Buf => (addB s.1 h1, addB s.2 h2)) s ?_
  intro b hB s
  dsimp only
  have hif : ∀ s : Buf × Buf, ∀ t : ℕ,
      (if hasBias
       then ((addB s.1 h1, addB s.2 h2).1,
             wr (addB s.1 h1, addB s.2 h2).2 o
               ((addB s.1 h1, addB s.2 h2).2 o + dout ((b*T + t)*OC + o)))
       else (addB s.1 h1, addB s.2 h2))
      = (addB (if hasBias
               then (s.1, wr s.2 o (s.2 o + dout ((b*T + t)*OC + o)))
               else s).1 h1,
         addB (if hasBias
               then (s.1, wr s.2 o (s.2 o + dout ((b*T + t)*OC + o)))
               else s).2 h2) := by
    intro s t
    cases hasBias
    · simp
    · rw [if_pos rfl, if_pos rfl]
      dsimp only
      rw [wr_acc_shift s.2 h2 _ _]
  refine iterN_comm T _ (fun s : Buf × Buf => (addB s.1 h1, addB s.2 h2)) s ?_
  intro t hT s
  dsimp only
  rw [hif s t]
  refine iterN_comm C _ (fun s : Buf × Buf => (addB s.1 h1, addB s.2 h2)) _ ?_
  intro i hi s
  dsimp only
  rw [wr_acc_shift s.1 h1 _ _]

theorem residual_backward_char1 (dout : Buf) (N : ℕ) (st : Buf × Buf) (j : ℕ) :
    (residual_backward dout N st).1 j
      = (residual_backward dout N (zb, zb)).1 j + st.1 j := by
  have h := residual_backward_shift dout N zb zb st.1 st.2
  rw [addB_zb, addB_zb] at h
  calc (residual_backward dout N st).1 j
      = (residual_backward dout N (st.1, st.2)).1 j := rfl
    _ = (addB (residual_backward dout N (zb, zb)).1 st.1) j := by rw [h]
    _ = _ := rfl

theorem residual_backward_char2 (dout : Buf) (N : ℕ) (st : Buf × Buf) (j : ℕ) :
    (residual_backward dout N st).2 j
      = (residual_backward dout N (zb, zb)).2 j + st.2 j := by
  have h := residual_backward_shift dout N zb zb st.1 st.2
  rw [addB_zb, addB_zb] at h
  calc (residual_backward dout N st).2 j
      = (residual_backward dout N (st.1, st.2)).2 j := rfl
    _ = (addB (residual_backward dout N (zb, zb)).2 st.2) j := by rw [h]
    _ = _ := rfl

theorem gelu_backward_char (th ch : ℚ → ℚ) (k : ℚ) (inp dout : Buf) (N : ℕ)
    (g : Buf) (j : ℕ) :
    gelu_backward th ch k inp dout N g j
      = gelu_backward th ch k inp dout N zb j + g j := by
  have h := gelu_backward_shift th ch k inp dout N zb g
  rw [addB_zb] at h
  calc gelu_backward th ch k inp dout N g j
      = (addB (gelu_backward th ch k inp dout N zb) g) j := by rw [h]
    _ = _ := rfl

theorem crossentropy_softmax_backward_char (dlosses probs : Buf) (tgt : ℕ → ℕ)
    (B T V Vp : ℕ) (g : Buf) (j : ℕ) :
    crossentropy_softmax_backward dlosses probs tgt B T V Vp g j
      = crossentropy_softmax_backward dlosses probs tgt B T V Vp zb j + g j := by
  have h := crossentropy_softmax_backward_shift dlosses probs tgt B T V Vp zb g
  rw [addB_zb] at h
  calc crossentropy_softmax_backward dlosses probs tgt B T V Vp g j
      = (addB (crossentropy_softmax_backward dlosses probs tgt B T V Vp zb) g) j := by rw [h]
    _ = _ := rfl

theorem encoder_backward_char1 (dout : Buf) (tok : ℕ → ℕ) (B T C : ℕ)
    (st : Buf × Buf) (j : ℕ) :
    (encoder_backward dout tok B T C st).1 j
      = (encoder_backward dout tok B T C (zb, zb)).1 j + st.1 j := by
  have h := encoder_backward_shift dout tok B T C zb zb st.1 st.2
  rw [addB_zb, addB_zb] at h
  calc (encoder_backward dout tok B T C st).1 j
      = (encoder_backward dout tok B T C (st.1, st.2)).1 j := rfl
    _ = (addB (encoder_backward dout tok B T C (zb, zb)).1 st.1) j := by rw [h]
    _ = _ := rfl

theorem encoder_backward_char2 (dout : Buf) (tok : ℕ → ℕ) (B T C : ℕ)
    (st : Buf × Buf) (j : ℕ) :
    (encoder_backward dout tok B T C st).2 j
      = (encoder_backward dout tok B T C (zb, zb)).2 j + st.2 j := by
  have h := encoder_backward_shift dout tok B T C zb zb st.1 st.2
  rw [addB_zb, addB_zb] at h
  calc (encoder_backward dout tok B T C st).2 j
      = (encoder_backward dout tok B T C (st.1, st.2)).2 j := rfl
    _ = (addB (encoder_backward dout tok B T C (zb, zb)).2 st.2) j := by rw [h]
    _ = _ := rfl

theorem layernorm_backward_char1 (dout inp weight mean rstd : Buf) (B T C : ℕ)
    (st : Buf × Buf × Buf) (j : ℕ) :
    (layernorm_backward dout inp weight mean rstd B T C st).1 j
      = (layernorm_backward dout inp weight mean rstd B T C (zb, zb, zb)).1 j
        + st.1 j := by
  have h := layernorm_backward_shift dout inp weight mean rstd B T C
    zb zb zb st.1 st.2.1 st.2.2
  rw [addB_zb, addB_zb, addB_zb] at h
  calc (layernorm_backward dout inp weight mean rstd B T C st).1 j
      = (layernorm_backward dout inp weight mean rstd B T C (st.1, st.2.1, st.2.2)).1 j := rfl
    _ = (addB (layernorm_backward dout inp weight mean rstd B T C (zb, zb, zb)).1 st.1) j := by rw [h]
    _ = _ := rfl

theorem layernorm_backward_char2 (dout inp weight mean rstd : Buf) (B T C : ℕ)
    (st : Buf × Buf × Buf) (j : ℕ) :
    (layernorm_backward dout inp weight mean rstd B T C st).2.1 j
      = (layernorm_backward dout inp weight mean rstd B T C (zb, zb, zb)).2.1 j
        + st.2.1 j := by
  have h := layernorm_backward_shift dout inp weight mean rstd B T C
    zb zb zb st.1 st.2.1 st.2.2
  rw [addB_zb, addB_zb, addB_zb] at h
  calc (layernorm_backward dout inp weight mean rstd B T C st).2.1 j
      = (layernorm_backward dout inp weight mean rstd B T C (st.1, st.2.1, st.2.2)).2.1 j := rfl
    _ = (addB (layernorm_backward dout inp weight mean rstd B T C (zb, zb, zb)).2.1 st.2.1) j := by rw [h]
    _ = _ := rfl

theorem layernorm_backward_char3 (dout inp weight mean rstd : Buf) (B T C : ℕ)
    (st : Buf × Buf × Buf) (j : ℕ) :
    (layernorm_backward dout inp weight mean rstd B T C st).2.2 j
      = (layernorm_backward dout inp weight mean rstd B T C (zb, zb, zb)).2.2 j
        + st.2.2 j := by
  have h := layernorm_backward_shift dout inp weight mean rstd B T C
    zb zb zb st.1 st.2.1 st.2.2
  rw [addB_zb, addB_zb, addB_zb] at h
  calc (layernorm_backward dout inp weight mean rstd B T C st).2.2 j
      = (layernorm_backward dout inp weight mean rstd B T C (st.1, st.2.1, st.2.2)).2.2 j := rfl
    _ = (addB (layernorm_backward dout inp weight mean rstd B T C (zb, zb, zb)).2.2 st.2.2) j := by rw [h]
    _ = _ := rfl

theorem matmul_backward_char1 (dout inp weight : Buf) (hasBias : Bool)
    (B T C OC : ℕ) (st : Buf × Buf × Buf) (j : ℕ) :
    (matmul_backward dout inp weight hasBias B T C OC st).1 j
      = (matmul_backward dout inp weight hasBias B T C OC (zb, zb, zb)).1 j
        + st.1 j := by
  have h := matmul_backward_dinp_shift dout weight B T C OC zb st.1
  rw [addB_zb] at h
  calc (matmul_backward dout inp weight hasBias B T C OC st).1 j
      = matmul_backward_dinp dout weight B T C OC st.1 j := rfl
    _ = (addB (matmul_backward_dinp dout weight B T C OC zb) st.1) j := by rw [h]
    _ = _ := rfl

theorem matmul_backward_char2 (dout inp weight : Buf) (hasBias : Bool)
    (B T C OC : ℕ) (st : Buf × Buf × Buf) (j : ℕ) :
    (matmul_backward dout inp weight hasBias B T C OC st).2.1 j
      = (matmul_backward dout inp weight hasBias B T C OC (zb, zb, zb)).2.1 j
        + st.2.1 j := by
  have h := matmul_backward_dwb_shift dout inp hasBias B T C OC zb zb st.2.1 st.2.2
  rw [addB_zb, addB_zb] at h
  calc (matmul_backward dout inp weight hasBias B T C OC st).2.1 j
      = (matmul_backward_dwb dout inp hasBias B T C OC (st.2.1, st.2.2)).1 j := rfl
    _ = (addB (matmul_backward_dwb dout inp hasBias B T C OC (zb, zb)).1 st.2.1) j := by rw [h]
    _ = _ := rfl

theorem matmul_backward_char3 (dout inp weight : Buf) (hasBias : Bool)
    (B T C OC : ℕ) (st : Buf × Buf × Buf) (j : ℕ) :
    (matmul_backward dout inp weight hasBias B T C OC st).2.2 j
      = (matmul_backward dout inp weight hasBias B T C OC (zb, zb, zb)).2.2 j
        + st.2.2 j := by
  have h := matmul_backward_dwb_shift dout inp hasBias B T C OC zb zb st.2.1 st.2.2
  rw [addB_zb, addB_zb] at h
  calc (matmul_backward dout inp weight hasBias B T C OC st).2.2 j
      = (matmul_backward_dwb dout inp hasBias B T C OC (st.2.1, st.2.2)).2 j := rfl
    _ = (addB (matmul_backward_dwb dout inp hasBias B T C OC (zb, zb)).2 st.2.2) j := by rw [h]
    _ = _ := rfl

/-- Claim C8 (amended): every backward primitive except `attention_backward`
is strictly additive into its gradient output buffers: for fixed inputs,
calling it twice in succession on the same gradient buffers produces exactly
twice the gradient delta of a single call, in every entry of every gradient
output.  (`attention_backward` reads its own `datt` and `dpreatt` output
buffers while accumulating, so its second call adds a different increment.) -/
theorem backward_primitives_additive
    (dout inp weight mean rstd dlosses probs : Buf) (tgt tok : ℕ → ℕ)
    (th ch : ℚ → ℚ) (k : ℚ) (hasBias : Bool) (B T C OC V Vp N : ℕ)
    (g1 g2 g3 : Buf) (j : ℕ) :
    ((encoder_backward dout tok B T C (encoder_backward dout tok B T C (g1, g2))).1 j
        - g1 j
      = 2 * ((encoder_backward dout tok B T C (g1, g2)).1 j - g1 j))
    ∧ ((encoder_backward dout tok B T C (encoder_backward dout tok B T C (g1, g2))).2 j
        - g2 j
      = 2 * ((encoder_backward dout tok B T C (g1, g2)).2 j - g2 j))
    ∧ ((layernorm_backward dout inp weight mean rstd B T C
          (layernorm_backward dout inp weight mean rstd B T C (g1, g2, g3))).1 j - g1 j
      = 2 * ((layernorm_backward dout inp weight mean rstd B T C (g1, g2, g3)).1 j - g1 j))
    ∧ ((layernorm_backward dout inp weight mean rstd B T C
          (layernorm_backward dout inp weight mean rstd B T C (g1, g2, g3))).2.1 j - g2 j
      = 2 * ((layernorm_backward dout inp weight mean rstd B T C (g1, g2, g3)).2.1 j - g2 j))
    ∧ ((layernorm_backward dout inp weight mean rstd B T C
          (layernorm_backward dout inp weight mean rstd B T C (g1, g2, g3))).2.2 j - g3 j
      = 2 * ((layernorm_backward dout inp weight mean rstd B T C (g1, g2, g3)).2.2 j - g3 j))
    ∧ ((matmul_backward dout inp weight hasBias B T C OC
          (matmul_backward dout inp weight hasBias B T C OC (g1, g2, g3))).1 j - g1 j
      = 2 * ((matmul_backward dout inp weight hasBias B T C OC (g1, g2, g3)).1 j - g1 j))
    ∧ ((matmul_backward dout inp weight hasBias B T C OC
          (matmul_backward dout inp weight hasBias B T C OC (g1, g2, g3))).2.1 j - g2 j
      = 2 * ((matmul_backward dout inp weight hasBias B T C OC (g1, g2, g3)).2.1 j - g2 j))
    ∧ ((matmul_backward dout inp weight hasBias B T C OC
          (matmul_backward dout inp weight hasBias B T C OC (g1, g2, g3))).2.2 j - g3 j
      = 2 * ((matmul_backward dout inp weight hasBias B T C OC (g1, g2, g3)).2.2 j - g3 j))
    ∧ (gelu_backward th ch k inp dout N (gelu_backward th ch k inp dout N g1) j - g1 j
      = 2 * (gelu_backward th ch k inp dout N g1 j - g1 j))
    ∧ ((residual_backward dout N (residual_backward dout N (g1, g2))).1 j - g1 j
      = 2 * ((residual_backward dout N (g1, g2)).1 j - g1 j))
    ∧ ((residual_backward dout N (residual_backward dout N (g1, g2))).2 j - g2 j
      = 2 * ((residual_backward dout N (g1, g2)).2 j - g2 j))
    ∧ (crossentropy_softmax_backward dlosses probs tgt B T V Vp
          (crossentropy_softmax_backward dlosses probs tgt B T V Vp g1) j - g1 j
      = 2 * (crossentropy_softmax_backward dlosses probs tgt B T V Vp g1 j - g1 j)) := by
  refine ⟨?_, ?_, ?_, ?_, ?_, ?_, ?_, ?_, ?_, ?_, ?_, ?_⟩
  · rw [encoder_backward_char1 dout tok B T C (encoder_backward dout tok B T C (g1, g2)) j,
      encoder_backward_char1 dout tok B T C (g1, g2) j]
    dsimp only
    ring
  · rw [encoder_backward_char2 dout tok B T C (encoder_backward dout tok B T C (g1, g2)) j,
      encoder_backward_char2 dout tok B T C (g1, g2) j]
    dsimp only
    ring
  · rw [layernorm_backward_char1 dout inp weight mean rstd B T C
      (layernorm_backward dout inp weight mean rstd B T C (g1, g2, g3)) j,
      layernorm_backward_char1 dout inp weight mean rstd B T C (g1, g2, g3) j]
    dsimp only
    ring
  · rw [layernorm_backward_char2 dout inp weight mean rstd B T C
      (layernorm_backward dout inp weight mean rstd B T C (g1, g2, g3)) j,
      layernorm_backward_char2 dout inp weight mean rstd B T C (g1, g2, g3) j]
    dsimp only
    ring
  · rw [layernorm_backward_char3 dout inp weight mean rstd B T C
      (layernorm_backward dout inp weight mean rstd B T C (g1, g2, g3)) j,
      layernorm_backward_char3 dout inp weight mean rstd B T C (g1, g2, g3) j]
    dsimp only
    ring
  · rw [matmul_backward_char1 dout inp weight hasBias B T C OC
      (matmul_backward dout inp weight hasBias B T C OC (g1, g2, g3)) j,
      matmul_backward_char1 dout inp weight hasBias B T C OC (g1, g2, g3) j]
    dsimp only
    ring
  · rw [matmul_backward_char2 dout inp weight hasBias B T C OC
      (matmul_backward dout inp weight hasBias B T C OC (g1, g2, g3)) j,
      matmul_backward_char2 dout inp weight hasBias B T C OC (g1, g2, g3) j]
    dsimp only
    ring
  · rw [matmul_backward_char3 dout inp weight hasBias B T C OC
      (matmul_backward dout inp weight hasBias B T C OC (g1, g2, g3)) j,
      matmul_backward_char3 dout inp weight hasBias B T C OC (g1, g2, g3) j]
    dsimp only
    ring
  · rw [gelu_backward_char th ch k inp dout N (gelu_backward th ch k inp dout N g1) j,
      gelu_backward_char th ch k inp dout N g1 j]
    ring
  · rw [residual_backward_char1 dout N (residual_backward dout N (g1, g2)) j,
      residual_backward_char1 dout N (g1, g2) j]
    dsimp only
    ring
  · rw [residual_backward_char2 dout N (residual_backward dout N (g1, g2)) j,
      residual_backward_char2 dout N (g1, g2) j]
    dsimp only
    ring
  · rw [crossentropy_softmax_backward_char dlosses probs tgt B T V Vp
      (crossentropy_softmax_backward dlosses probs tgt B T V Vp g1) j,
      crossentropy_softmax_backward_char dlosses probs tgt B T V Vp g1 j]
    ring

/-- Claim C8, counterexample: `attention_backward` is not strictly additive.
With B = T = C = NH = 1, `q = k = v = 1`, `att = [1/2]`, `dout = [1]`, and all
three gradient buffers zeroed, a single call adds 1/4 to `dpreatt[0]` but two
successive calls add 3/4, because the second call reads the `datt` value the
first call accumulated. -/
theorem attention_backward_not_additive :
    ¬ ((attention_backward (fun _ => 1) (fun _ => 1) (fun _ => 1) (fun _ => 1/2) 1 1 1 1
          (attention_backward (fun _ => 1) (fun _ => 1) (fun _ => 1) (fun _ => 1/2) 1 1 1 1
            ((fun _ => 0), (fun _ => 0), (fun _ => 0)))).2.1 0
          - (fun _ : ℕ => (0:ℚ)) 0
        = 2 * ((attention_backward (fun _ => 1) (fun _ => 1) (fun _ => 1) (fun _ => 1/2)
            1 1 1 1 ((fun _ => 0), (fun _ => 0), (fun _ => 0))).2.1 0
          - (fun _ : ℕ => (0:ℚ)) 0)) := by
  norm_num [attention_backward, attnBwd_bth, attnBwd1, attnBwd23, attnBwd4,
    attIdx, iterN, wr]
